import Mathlib

/-!
# utils/vector.h: sorted insertion helpers and the trivial vector

A shallow embedding of `libs/utils/include/utils/vector.h`.

* `std::vector<T>` is a `List T`; an iterator of a `std::vector` is the index it points at
  (`v.end()` is `v.length`).  `std::lower_bound`, `std::vector::insert`, `push_back` and `back`
  are modelled from the C++ standard library.
* `T` only has to provide `operator<`; the definitions use nothing else.
-/

namespace utils

variable {α : Type}

/-! ## Sorted insertion helpers (vector.h, lines 24-56) -/

section SortedHelpers

variable [LT α] [DecidableRel (fun a b : α => a < b)]

/-- The loop of `std::lower_bound(first, last, value)`: `first` is the index of the current
lower end and `count` the number of elements still to search.
```
while (count > 0) {
    it = first; step = count / 2; advance(it, step);
    if (*it < value) { first = ++it; count -= step + 1; } else count = step;
}
return first;
```
`count` strictly decreases, so `fuel = count` iterations are always enough. -/
def lower_bound_loop (v : List α) (value : α) :
    (fuel first count : Nat) → first + count ≤ v.length → {p : Nat // p ≤ v.length}
  | 0, first, _, h => ⟨first, by omega⟩
  | fuel + 1, first, count, h =>
    if hc : 0 < count then
      if v.get ⟨first + count / 2, by omega⟩ < value then
        lower_bound_loop v value fuel (first + count / 2 + 1) (count - (count / 2 + 1)) (by omega)
      else
        lower_bound_loop v value fuel first (count / 2) (by omega)
    else ⟨first, by omega⟩

/-- The call `std::lower_bound(v.begin(), v.end(), value)`; the result is an iterator of `v`,
that is an index `p ≤ v.length`. -/
def lower_bound (v : List α) (value : α) : {p : Nat // p ≤ v.length} :=
  lower_bound_loop v value v.length 0 v.length (by omega)

/-- The call `v.insert(pos, item)` of `std::vector`: the elements before `pos`, then `item`,
then the elements from `pos` on. -/
def vector_insert (v : List α) (pos : Nat) (item : α) : List α :=
  v.take pos ++ item :: v.drop pos

/-- The call `v.push_back(item)` of `std::vector`. -/
def vector_push_back (v : List α) (item : α) : List α :=
  v ++ [item]

/-- vector.h, lines 27-31.
```
auto pos = std::lower_bound(v.begin(), v.end(), item);
v.insert(pos, std::move(item));
```
-/
def insert_sorted (v : List α) (item : α) : List α :=
  let pos := lower_bound v item
  vector_insert v pos.1 item

/-- vector.h, lines 42-56.  The result is the returned boolean and the vector after the call.
```
if (v.size() == 0 || v.back() < item) { v.push_back(item); return true; }
auto pos = std::lower_bound(v.begin(), v.end(), item);
if (pos == v.end() || item < *pos) { v.insert(pos, std::move(item)); return true; }
return false;
```
-/
def insert_sorted_unique (v : List α) (item : α) : Bool × List α :=
  if h0 : v.length = 0 then (true, vector_push_back v item)
  else if v.getLast (by intro hv; simp [hv] at h0) < item then (true, vector_push_back v item)
  else
    let pos := lower_bound v item
    if hp : pos.1 = v.length then (true, vector_insert v pos.1 item)
    else if item < v.get ⟨pos.1, lt_of_le_of_ne pos.2 hp⟩ then (true, vector_insert v pos.1 item)
    else (false, v)

/-- The variant of `insert_sorted_unique` without the append fast path of lines 44-47. -/
def insert_sorted_unique_slow (v : List α) (item : α) : Bool × List α :=
  let pos := lower_bound v item
  if hp : pos.1 = v.length then (true, vector_insert v pos.1 item)
  else if item < v.get ⟨pos.1, lt_of_le_of_ne pos.2 hp⟩ then (true, vector_insert v pos.1 item)
  else (false, v)

/-- The vector obtained from the empty vector by the calls `insert_sorted_unique(v, item)` for
the items of `items` in order. -/
def insert_sorted_unique_all (items : List α) : List α :=
  items.foldl (fun v item => (insert_sorted_unique v item).2) []

end SortedHelpers

/-- An example element type for the sorted insertion helpers (it is not a type of the
repository), whose `operator<` is a strict weak ordering and not a total one: an item with a
sort key and a payload, compared by the key alone,
`bool operator<(Keyed const& o) const { return key < o.key; }`.  Two items with the same key
are equivalent for the ordering and still different items. -/
structure Keyed where
  key : Nat
  tag : Nat
  deriving DecidableEq, Repr

instance : LT Keyed := ⟨fun a b => a.key < b.key⟩

instance : DecidableRel (fun a b : Keyed => a < b) :=
  fun a b => inferInstanceAs (Decidable (a.key < b.key))

instance : IsStrictWeakOrder Keyed (fun a b => a < b) where
  irrefl a := Nat.lt_irrefl a.key
  trans _ _ _ h1 h2 := Nat.lt_trans h1 h2
  incomp_trans _ _ _ h1 h2 :=
    ⟨fun h => h1.1 (Nat.lt_of_lt_of_le h (Nat.not_lt.mp h2.1)),
      fun h => h2.2 (Nat.lt_of_lt_of_le h (Nat.not_lt.mp h1.2))⟩

/-! ## TrivialVectorBase and vector (vector.h, lines 60-263)

A pointer `T*` is the address of a heap block together with the index of an item slot in it;
slot `k` stands for the `itemSize` bytes from byte `k * itemSize` on.  The argument `itemSize`
of the base class is always `sizeof(T)`; the member functions of `vector` take it as their
first argument after the object.  Arithmetic on `size_type` (`uint32_t`) is arithmetic modulo
`2 ^ 32`, and this includes the byte counts `n * itemSize` handed to `malloc` and `memcpy`
and the byte offset `mItemCount * itemSize` of `end()`.

A vector owns its block exclusively, so its state carries the contents of the block at
`mBegin`, slot by slot; a slot holds `none` while it is uninitialised.  Every block the class
allocates is requested as `malloc(mCapacity * itemSize)`, with the product taken in
`uint32_t`: the owned block has `(mCapacity * itemSize) % 2 ^ 32` bytes, which is less than
`mCapacity` slots once the product wraps.  `malloc` is taken to succeed.

An operation yields `none` when the C++ code has undefined behaviour: an access outside the
owned block, a `memcpy` that overruns the source or the destination block, or an iterator
range that does not lie in one block. -/

/-- The number of values of `size_type = uint32_t`. -/
def SIZE_TYPE_MOD : Nat := 2 ^ 32

/-- The null pointer. -/
def nullptr : Nat := 0

/-- A pointer `T*` (an `iterator` or `const_iterator`): slot `idx` of the heap block at address
`block`. -/
structure Ptr where
  block : Nat
  idx : Nat
  deriving DecidableEq, Repr

/-- Pointer arithmetic `p + k`. -/
def Ptr.add (p : Ptr) (k : Nat) : Ptr := ⟨p.block, p.idx + k⟩

/-- vector.h, lines 60-66: the three members, and in `mem` the contents of the heap block at
`mBegin`, which the object owns. -/
structure TrivialVectorBase (α : Type) where
  mBegin : Nat
  mItemCount : Nat
  mCapacity : Nat
  mem : Nat → Option α

namespace TrivialVectorBase

/-- vector.h, line 68: the default constructor, with the default member initialisers
`mBegin = nullptr`, `mItemCount = 0`, `mCapacity = 0`. -/
def default : TrivialVectorBase α :=
  { mBegin := nullptr, mItemCount := 0, mCapacity := 0, mem := fun _ => none }

/-- vector.h, lines 70-73: `TrivialVectorBase(itemSize, count)`, which allocates
`malloc(mCapacity * itemSize)`; `addr` is the address `malloc` returns. -/
def sized (count addr : Nat) : TrivialVectorBase α :=
  { mBegin := addr, mItemCount := count, mCapacity := count, mem := fun _ => none }

/-- The size in bytes of the block at `mBegin`: the argument `mCapacity * itemSize` of the
`malloc` call that allocated it (lines 72 and 101), a product of two `uint32_t`. -/
def block_size (s : TrivialVectorBase α) (itemSize : Nat) : Nat :=
  (s.mCapacity * itemSize) % SIZE_TYPE_MOD

/-- Whether `p` points at a slot of the block owned by `s`, that is whether the `itemSize`
bytes of slot `p.idx` lie inside the block. -/
def inBlock (s : TrivialVectorBase α) (itemSize : Nat) (p : Ptr) : Prop :=
  p.block = s.mBegin ∧ (p.idx + 1) * itemSize ≤ s.block_size itemSize

instance (s : TrivialVectorBase α) (itemSize : Nat) (p : Ptr) :
    Decidable (s.inBlock itemSize p) :=
  inferInstanceAs (Decidable (p.block = s.mBegin ∧ (p.idx + 1) * itemSize ≤ s.block_size itemSize))

/-- Reading `*p`: the content of the slot, undefined outside the owned block. -/
def load (s : TrivialVectorBase α) (itemSize : Nat) (p : Ptr) : Option (Option α) :=
  if s.inBlock itemSize p then some (s.mem p.idx) else none

/-- Writing `*p = x`, undefined outside the owned block. -/
def store (s : TrivialVectorBase α) (itemSize : Nat) (p : Ptr) (x : Option α) :
    Option (TrivialVectorBase α) :=
  if s.inBlock itemSize p then
    some { s with mem := fun i => if i = p.idx then x else s.mem i }
  else none

/-- vector.h, lines 95-106; `addr` is the address `malloc` returns.
```
if (n == mCapacity) return;
char* addr = (char*)malloc(n * itemSize);
memcpy(addr, mBegin, ((mItemCount < n) ? mItemCount : n) * itemSize);
free(mBegin);
mBegin = addr;
mCapacity = n;
```
Both products are products of `uint32_t`.  `memcpy` copies `len` bytes from the old block into
the new block of `size` bytes and is undefined when either block is shorter; the slots that lie
inside the first `len` bytes are the ones copied. -/
def set_capacity (s : TrivialVectorBase α) (n itemSize addr : Nat) :
    Option (TrivialVectorBase α) :=
  if n = s.mCapacity then some s
  else
    let size := (n * itemSize) % SIZE_TYPE_MOD
    let len := ((if s.mItemCount < n then s.mItemCount else n) * itemSize) % SIZE_TYPE_MOD
    if len ≤ size ∧ len ≤ s.block_size itemSize then
      some { mBegin := addr
             mItemCount := s.mItemCount
             mCapacity := n
             mem := fun i => if (i + 1) * itemSize ≤ len then s.mem i else none }
    else none

/-- vector.h, lines 89-93: `c = (c * 3 + 1) / 2; set_capacity(c, itemSize);` in `uint32_t`. -/
def assert_capacity_slow (s : TrivialVectorBase α) (c itemSize addr : Nat) :
    Option (TrivialVectorBase α) :=
  set_capacity s ((c * 3 + 1) % SIZE_TYPE_MOD / 2) itemSize addr

/-- vector.h, lines 83-87: `if (mCapacity < c) assert_capacity_slow(c, itemSize);`. -/
def assert_capacity (s : TrivialVectorBase α) (c itemSize addr : Nat) :
    Option (TrivialVectorBase α) :=
  if s.mCapacity < c then assert_capacity_slow s c itemSize addr else some s

/-- vector.h, lines 108-113: the three members are exchanged (the blocks follow their
pointers); the result is `(*this, other)` after the call. -/
def swap (this other : TrivialVectorBase α) : TrivialVectorBase α × TrivialVectorBase α :=
  ({ mBegin := other.mBegin, mItemCount := other.mItemCount, mCapacity := other.mCapacity,
     mem := other.mem },
   { mBegin := this.mBegin, mItemCount := this.mItemCount, mCapacity := this.mCapacity,
     mem := this.mem })

/-- vector.h, lines 75-77: the move constructor, `this->swap(rhs)` on a default-initialised
`*this`; the result is `(*this, rhs)` after the construction. -/
def move_construct (rhs : TrivialVectorBase α) : TrivialVectorBase α × TrivialVectorBase α :=
  swap default rhs

/-- vector.h, line 115. -/
def begin (s : TrivialVectorBase α) : Ptr := ⟨s.mBegin, 0⟩

/-- vector.h, line 116: `mBegin + mItemCount * itemSize`, the byte offset being a product of
`uint32_t`; as a `T*` it is the slot that starts at this offset, slot `mItemCount` unless the
product wraps (an offset that is no multiple of `itemSize` can only come from a wrapped
product and is taken down to the slot it lies in). -/
def end_ (s : TrivialVectorBase α) (itemSize : Nat) : Ptr :=
  ⟨s.mBegin, (s.mItemCount * itemSize) % SIZE_TYPE_MOD / itemSize⟩

end TrivialVectorBase

/-! ### Standard algorithms on pointer ranges -/

open TrivialVectorBase in
/-- The loop of `std::move(first, last, d_first)`, `n` iterations:
`while (first != last) *d_first++ = std::move(*first++);`. -/
def std_move_loop (itemSize : Nat) :
    Nat → TrivialVectorBase α → Ptr → Ptr → Option (TrivialVectorBase α)
  | 0, s, _, _ => some s
  | n + 1, s, first, d_first =>
    match load s itemSize first with
    | none => none
    | some x =>
      match store s itemSize d_first x with
      | none => none
      | some s1 => std_move_loop itemSize n s1 (first.add 1) (d_first.add 1)

/-- The call `std::move(first, last, d_first)`: defined when `[first, last)` is a range of one
block. -/
def std_move (s : TrivialVectorBase α) (itemSize : Nat) (first last d_first : Ptr) :
    Option (TrivialVectorBase α) :=
  if first.block = last.block ∧ first.idx ≤ last.idx then
    std_move_loop itemSize (last.idx - first.idx) s first d_first
  else none

open TrivialVectorBase in
/-- The loop of `std::move_backward(first, last, d_last)`, `n` iterations:
`while (first != last) *(--d_last) = std::move(*(--last));`. -/
def std_move_backward_loop (itemSize : Nat) :
    Nat → TrivialVectorBase α → Ptr → Ptr → Option (TrivialVectorBase α)
  | 0, s, _, _ => some s
  | n + 1, s, last, d_last =>
    if last.idx = 0 ∨ d_last.idx = 0 then none
    else
      match load s itemSize ⟨last.block, last.idx - 1⟩ with
      | none => none
      | some x =>
        match store s itemSize ⟨d_last.block, d_last.idx - 1⟩ x with
        | none => none
        | some s1 =>
          std_move_backward_loop itemSize n s1 ⟨last.block, last.idx - 1⟩
            ⟨d_last.block, d_last.idx - 1⟩

/-- The call `std::move_backward(first, last, d_last)`. -/
def std_move_backward (s : TrivialVectorBase α) (itemSize : Nat) (first last d_last : Ptr) :
    Option (TrivialVectorBase α) :=
  if first.block = last.block ∧ first.idx ≤ last.idx then
    std_move_backward_loop itemSize (last.idx - first.idx) s last d_last
  else none

open TrivialVectorBase in
/-- The loop of `std::generate(first, last, g)` for the constant generator `[v] { return v; }`,
`n` iterations: `while (first != last) *first++ = g();`. -/
def std_generate_loop (itemSize : Nat) :
    Nat → TrivialVectorBase α → Ptr → α → Option (TrivialVectorBase α)
  | 0, s, _, _ => some s
  | n + 1, s, first, v =>
    match store s itemSize first (some v) with
    | none => none
    | some s1 => std_generate_loop itemSize n s1 (first.add 1) v

/-- The call `std::generate(first, last, [v] { return v; })`. -/
def std_generate (s : TrivialVectorBase α) (itemSize : Nat) (first last : Ptr) (v : α) :
    Option (TrivialVectorBase α) :=
  if first.block = last.block ∧ first.idx ≤ last.idx then
    std_generate_loop itemSize (last.idx - first.idx) s first v
  else none

/-! ### vector

The argument `itemSize` of the member functions below is `sizeof(T)`. -/

namespace vector

open TrivialVectorBase

/-- vector.h, line 137: `vector()`. -/
def empty_vector : TrivialVectorBase α := TrivialVectorBase.default

/-- vector.h, line 174. -/
def size (s : TrivialVectorBase α) : Nat := s.mItemCount

/-- vector.h, line 176. -/
def capacity (s : TrivialVectorBase α) : Nat := s.mCapacity

/-- vector.h, line 194: `data()`. -/
def data (s : TrivialVectorBase α) : Ptr := s.begin

/-- vector.h, line 182: `operator[](n)`, `*(begin() + n)`; `none` is an uninitialised slot. -/
def index (s : TrivialVectorBase α) (n : Nat) : Option α := s.mem n

/-- vector.h, lines 200-204.
```
assert_capacity(size() + 1, sizeof(T));
*end() = v;
mItemCount++;
```
-/
def push_back (s : TrivialVectorBase α) (itemSize addr : Nat) (v : α) :
    Option (TrivialVectorBase α) :=
  match assert_capacity s ((size s + 1) % SIZE_TYPE_MOD) itemSize addr with
  | none => none
  | some s1 =>
    match store s1 itemSize (s1.end_ itemSize) (some v) with
    | none => none
    | some s2 => some { s2 with mItemCount := (s2.mItemCount + 1) % SIZE_TYPE_MOD }

/-- vector.h, lines 214-216: `mItemCount--;`. -/
def pop_back (s : TrivialVectorBase α) : TrivialVectorBase α :=
  { s with mItemCount := (s.mItemCount + SIZE_TYPE_MOD - 1) % SIZE_TYPE_MOD }

/-- vector.h, lines 218-223.
```
assert_capacity(size() + 1, sizeof(T));
std::move_backward(position, end(), end() + 1);
*position = v;
mItemCount++;
```
The member is declared `iterator insert(const_iterator position, const_reference v)`: the body
writes through `position`, a pointer to `const T`, and has no return statement, so the member
is ill-formed once it is instantiated and a call cannot deliver the iterator it is declared to
return.  The definition is the effect of the four statements on the object, with `position`
read as an `iterator`. -/
def insert (s : TrivialVectorBase α) (itemSize addr : Nat) (position : Ptr) (v : α) :
    Option (TrivialVectorBase α) :=
  match assert_capacity s ((size s + 1) % SIZE_TYPE_MOD) itemSize addr with
  | none => none
  | some s1 =>
    match std_move_backward s1 itemSize position (s1.end_ itemSize)
        ((s1.end_ itemSize).add 1) with
    | none => none
    | some s2 =>
      match store s2 itemSize position (some v) with
      | none => none
      | some s3 => some { s3 with mItemCount := (s3.mItemCount + 1) % SIZE_TYPE_MOD }

/-- vector.h, lines 225-228.
```
std::move(position + 1, end(), position);
mItemCount--;
```
The member is declared `iterator erase(const_iterator position)`: `std::move` is called with a
`const T*` and a `T*` for its two source iterators, which have to be of one type, its
destination is a pointer to `const T`, and the body has no return statement, so the member is
ill-formed once it is instantiated and a call cannot deliver the iterator it is declared to
return.  The definition is the effect of the two statements on the object, with `position`
read as an `iterator`. -/
def erase (s : TrivialVectorBase α) (itemSize : Nat) (position : Ptr) :
    Option (TrivialVectorBase α) :=
  match std_move s itemSize (position.add 1) (s.end_ itemSize) position with
  | none => none
  | some s1 =>
    some { s1 with mItemCount := (s1.mItemCount + SIZE_TYPE_MOD - 1) % SIZE_TYPE_MOD }

/-- vector.h, lines 230-233.
```
std::move(last, end(), first);
mItemCount -= last - first;
```
The member is declared `iterator erase(const_iterator first, const_iterator last)` and is
ill-formed once it is instantiated, for the reasons given at `erase`.  The definition is the
effect of the two statements on the object, with `first` and `last` read as `iterator`s; the
difference `last - first` is defined for two pointers into one block. -/
def erase_range (s : TrivialVectorBase α) (itemSize : Nat) (first last : Ptr) :
    Option (TrivialVectorBase α) :=
  match std_move s itemSize last (s.end_ itemSize) first with
  | none => none
  | some s1 =>
    if first.block = last.block then
      some { s1 with
        mItemCount :=
          (((s1.mItemCount : Int) - ((last.idx : Int) - (first.idx : Int)))
            % (SIZE_TYPE_MOD : Int)).toNat }
    else none

/-- vector.h, lines 235-237: `mItemCount = 0;`. -/
def clear (s : TrivialVectorBase α) : TrivialVectorBase α :=
  { s with mItemCount := 0 }

/-- vector.h, lines 239-242: `assert_capacity(count, sizeof(T)); mItemCount = count;`. -/
def resize (s : TrivialVectorBase α) (itemSize addr count : Nat) :
    Option (TrivialVectorBase α) :=
  match assert_capacity s count itemSize addr with
  | none => none
  | some s1 => some { s1 with mItemCount := count }

/-- vector.h, lines 244-250.
```
assert_capacity(count, sizeof(T));
if (count > size()) {
    std::generate(begin() + size(), begin() + count, [v] { return v; });
}
mItemCount = count;
```
-/
def resize_fill (s : TrivialVectorBase α) (itemSize addr count : Nat) (v : α) :
    Option (TrivialVectorBase α) :=
  match assert_capacity s count itemSize addr with
  | none => none
  | some s1 =>
    if count > size s1 then
      match std_generate s1 itemSize (s1.begin.add (size s1)) (s1.begin.add count) v with
      | none => none
      | some s2 => some { s2 with mItemCount := count }
    else some { s1 with mItemCount := count }

/-- vector.h, lines 256-258: `set_capacity(n, sizeof(T));`. -/
def reserve (s : TrivialVectorBase α) (itemSize addr n : Nat) : Option (TrivialVectorBase α) :=
  set_capacity s n itemSize addr

/-- The elements of the vector, `operator[]` at the indices `0 .. size() - 1`. -/
def elements (s : TrivialVectorBase α) : List (Option α) :=
  (List.range (size s)).map (index s)

/-- The vector `s` of items of `itemSize` bytes holds exactly the elements `xs`: the items
have a size, the block has room for `capacity()` items (its byte size `capacity() * itemSize`
is a `uint32_t`), `size()` is the number of elements, it is at most the capacity, and slot `i`
is initialised with `xs[i]`. -/
def Holds (s : TrivialVectorBase α) (itemSize : Nat) (xs : List α) : Prop :=
  0 < itemSize ∧ s.mCapacity * itemSize < SIZE_TYPE_MOD ∧
    s.mItemCount = xs.length ∧ xs.length ≤ s.mCapacity ∧
    ∀ i, i < xs.length → s.mem i = xs[i]?

/-- A vector holding `xs` in a block of `cap` slots at address `addr`. -/
def ofList (xs : List α) (cap addr : Nat) : TrivialVectorBase α :=
  { mBegin := addr, mItemCount := xs.length, mCapacity := cap, mem := fun i => xs[i]? }

/-- One call of a mutating member function; `addr` is the address `malloc` returns should the
call allocate. -/
inductive Op (α : Type) where
  | push_back (addr : Nat) (v : α)
  | pop_back
  | insert (addr : Nat) (position : Ptr) (v : α)
  | erase (position : Ptr)
  | erase_range (first last : Ptr)

/-- The effect of one call. -/
def step (s : TrivialVectorBase α) (itemSize : Nat) : Op α → Option (TrivialVectorBase α)
  | .push_back addr v => push_back s itemSize addr v
  | .pop_back => some (pop_back s)
  | .insert addr position v => insert s itemSize addr position v
  | .erase position => erase s itemSize position
  | .erase_range first last => erase_range s itemSize first last

/-- The effect of a sequence of calls, first to last. -/
def run (s : TrivialVectorBase α) (itemSize : Nat) :
    List (Op α) → Option (TrivialVectorBase α)
  | [] => some s
  | op :: ops =>
    match step s itemSize op with
    | none => none
    | some s1 => run s1 itemSize ops

/-- The caller's side of one call: `pop_back()` is called on a non-empty vector and
`erase(first, last)` with `first <= last`. -/
def admissible (s : TrivialVectorBase α) : Op α → Bool
  | .pop_back => decide (0 < size s)
  | .erase_range first last => decide (first.idx ≤ last.idx)
  | _ => true

/-- Every call of the sequence is admissible in the state it is made in. -/
def Admissible (s : TrivialVectorBase α) (itemSize : Nat) : List (Op α) → Bool
  | [] => true
  | op :: ops =>
    admissible s op &&
      match step s itemSize op with
      | none => true
      | some s1 => Admissible s1 itemSize ops

/-- The calls `push_back(v)` for the pairs `(addr, v)` of `xs` in order. -/
def push_back_all (s : TrivialVectorBase α) (itemSize : Nat) :
    List (Nat × α) → Option (TrivialVectorBase α)
  | [] => some s
  | (addr, v) :: xs =>
    match push_back s itemSize addr v with
    | none => none
    | some s1 => push_back_all s1 itemSize xs

/-- The number of calls, among the calls `push_back(v)` for the pairs `(addr, v)` of `xs` in
order, that reallocate, that is change `capacity()`. -/
def push_back_reallocations (s : TrivialVectorBase α) (itemSize : Nat) :
    List (Nat × α) → Option Nat
  | [] => some 0
  | (addr, v) :: xs =>
    match push_back s itemSize addr v with
    | none => none
    | some s1 =>
      match push_back_reallocations s1 itemSize xs with
      | none => none
      | some k => some (if capacity s1 = capacity s then k else k + 1)

/-- The capacity after a `push_back` on a full vector of capacity `c`, while `(c + 1) * 3 + 1`
fits 32 bits: `assert_capacity_slow` is called with `size() + 1 = c + 1` and sets the capacity
to `((c + 1) * 3 + 1) / 2` (lines 90 and 201). -/
def grown_capacity (c : Nat) : Nat := ((c + 1) * 3 + 1) / 2

end vector

/-! ## Properties of the sorted insertion helpers -/

theorem vector_insert_perm (v : List α) (pos : Nat) (item : α) :
    (vector_insert v pos item).Perm (item :: v) := by
  unfold vector_insert
  exact List.perm_middle.trans (List.Perm.cons _ (by rw [List.take_append_drop]))

theorem vector_insert_length (v : List α) (pos : Nat) (item : α) :
    (vector_insert v pos item).length = v.length + 1 := by
  simpa using (vector_insert_perm v pos item).length_eq

section SortedProofs

variable [LinearOrder α]

/-- The binary search keeps its invariant: everything left of `first` is less than `value`,
nothing from `first + count` on is. -/
theorem lower_bound_loop_spec (v : List α) (value : α) (hv : v.Sorted (· ≤ ·)) :
    ∀ (fuel first count : Nat) (h : first + count ≤ v.length), count ≤ fuel →
      (∀ i (hi : i < v.length), i < first → v.get ⟨i, hi⟩ < value) →
      (∀ i (hi : i < v.length), first + count ≤ i → ¬ v.get ⟨i, hi⟩ < value) →
      (∀ i (hi : i < v.length), i < (lower_bound_loop v value fuel first count h).1 →
          v.get ⟨i, hi⟩ < value) ∧
        (∀ i (hi : i < v.length), (lower_bound_loop v value fuel first count h).1 ≤ i →
          ¬ v.get ⟨i, hi⟩ < value) := by
  intro fuel
  induction fuel with
  | zero =>
    intro first count h hc hlo hhi
    have h0 : count = 0 := by omega
    subst h0
    simp only [lower_bound_loop]
    refine ⟨hlo, fun i hi hle => hhi i hi ?_⟩
    have hle2 : first ≤ i := hle
    omega
  | succ fuel ih =>
    intro first count h hc hlo hhi
    unfold lower_bound_loop
    by_cases hpos : 0 < count
    · rw [dif_pos hpos]
      have hmid : first + count / 2 < v.length := by omega
      by_cases hlt : v.get ⟨first + count / 2, hmid⟩ < value
      · rw [if_pos hlt]
        apply ih _ _ _ (by omega)
        · intro i hi hi2
          have hle : v.get ⟨i, hi⟩ ≤ v.get ⟨first + count / 2, hmid⟩ :=
            hv.rel_get_of_le (a := ⟨i, hi⟩) (b := ⟨first + count / 2, hmid⟩)
              (by simp only [Fin.mk_le_mk]; omega)
          exact lt_of_le_of_lt hle hlt
        · intro i hi hi2
          exact hhi i hi (by omega)
      · rw [if_neg hlt]
        apply ih _ _ _ (by omega) hlo
        intro i hi hi2
        have hle : v.get ⟨first + count / 2, hmid⟩ ≤ v.get ⟨i, hi⟩ :=
          hv.rel_get_of_le (a := ⟨first + count / 2, hmid⟩) (b := ⟨i, hi⟩)
            (by simp only [Fin.mk_le_mk]; omega)
        exact fun hc2 => hlt (lt_of_le_of_lt hle hc2)
    · rw [dif_neg hpos]
      refine ⟨hlo, fun i hi hle => hhi i hi ?_⟩
      have hle2 : first ≤ i := hle
      omega

/-- On a sorted vector `std::lower_bound` returns the first position whose element is not less
than `value`. -/
theorem lower_bound_spec (v : List α) (value : α) (hv : v.Sorted (· ≤ ·)) :
    (∀ i (hi : i < v.length), i < (lower_bound v value).1 → v.get ⟨i, hi⟩ < value) ∧
      (∀ i (hi : i < v.length), (lower_bound v value).1 ≤ i → value ≤ v.get ⟨i, hi⟩) := by
  have h := lower_bound_loop_spec v value hv v.length 0 v.length (by omega) le_rfl
    (fun i _ hi => absurd hi (by omega)) (fun i hi hle => absurd hle (by omega))
  exact ⟨h.1, fun i hi hle => not_lt.mp (h.2 i hi hle)⟩

theorem lower_bound_take (v : List α) (value : α) (hv : v.Sorted (· ≤ ·)) :
    ∀ a ∈ v.take (lower_bound v value).1, a < value := by
  intro a ha
  obtain ⟨i, hi, rfl⟩ := List.getElem_of_mem ha
  rw [List.getElem_take]
  rw [List.length_take] at hi
  exact (lower_bound_spec v value hv).1 i (by omega) (by omega)

theorem lower_bound_drop (v : List α) (value : α) (hv : v.Sorted (· ≤ ·)) :
    ∀ a ∈ v.drop (lower_bound v value).1, value ≤ a := by
  intro a ha
  obtain ⟨i, hi, rfl⟩ := List.getElem_of_mem ha
  rw [List.getElem_drop]
  rw [List.length_drop] at hi
  exact (lower_bound_spec v value hv).2 _ (by omega) (by omega)

/-- Inserting `item` between a prefix of smaller elements and a suffix of elements that are
not smaller keeps a sorted vector sorted. -/
theorem vector_insert_sorted (v : List α) (pos : Nat) (item : α) (hv : v.Sorted (· ≤ ·))
    (hlo : ∀ a ∈ v.take pos, a < item) (hhi : ∀ a ∈ v.drop pos, item ≤ a) :
    (vector_insert v pos item).Sorted (· ≤ ·) := by
  unfold vector_insert
  refine List.pairwise_append.mpr ⟨hv.sublist (List.take_sublist _ _), ?_, ?_⟩
  · exact List.pairwise_cons.mpr ⟨hhi, hv.sublist (List.drop_sublist _ _)⟩
  · intro a ha b hb
    rcases List.mem_cons.mp hb with rfl | hb
    · exact le_of_lt (hlo a ha)
    · exact le_trans (le_of_lt (hlo a ha)) (hhi b hb)

end SortedProofs

section SortedClaims

variable [LinearOrder α]

/-- An element less than `item` at the back of a sorted vector: `item` is not in the vector
and appending it keeps the vector sorted. -/
theorem push_back_sorted (v : List α) (item : α) (hv : v.Sorted (· ≤ ·))
    (hback : ∀ h : v ≠ [], v.getLast h < item) :
    item ∉ v ∧ (vector_push_back v item).Sorted (· ≤ ·) := by
  have hall : ∀ a ∈ v, a < item := by
    intro a ha
    have hne : v ≠ [] := List.ne_nil_of_mem ha
    have hsplit := List.dropLast_append_getLast hne
    rw [← hsplit] at ha hv
    rcases List.mem_append.mp ha with h1 | h1
    · exact lt_of_le_of_lt ((List.pairwise_append.mp hv).2.2 a h1 _ (List.mem_singleton_self _))
        (hback hne)
    · rw [List.mem_singleton.mp h1]
      exact hback hne
  refine ⟨fun hmem => lt_irrefl _ (hall item hmem), ?_⟩
  unfold vector_push_back
  exact List.pairwise_append.mpr ⟨hv, List.pairwise_singleton _ _,
    fun a ha b hb => by rw [List.mem_singleton.mp hb]; exact le_of_lt (hall a ha)⟩

/-- The two outcomes of `insert_sorted_unique` on an ascending-sorted vector, by the branch
taken: the append fast path, the insertion at the position found by `std::lower_bound`, or the
return without insertion. -/
theorem insert_sorted_unique_spec (v : List α) (x : α) (hv : v.Sorted (· ≤ ·)) :
    (x ∈ v → insert_sorted_unique v x = (false, v)) ∧
      (x ∉ v → (insert_sorted_unique v x).1 = true ∧
        (insert_sorted_unique v x).2.Sorted (· ≤ ·) ∧
        (insert_sorted_unique v x).2.length = v.length + 1 ∧
        (insert_sorted_unique v x).2.Perm (x :: v)) := by
  have hins : x ∉ v → (vector_insert v (lower_bound v x).1 x).Sorted (· ≤ ·) ∧
      (vector_insert v (lower_bound v x).1 x).length = v.length + 1 ∧
      (vector_insert v (lower_bound v x).1 x).Perm (x :: v) := fun _ =>
    ⟨vector_insert_sorted v _ x hv (lower_bound_take v x hv) (lower_bound_drop v x hv),
      vector_insert_length v _ x, vector_insert_perm v _ x⟩
  have hpush : (vector_push_back v x).length = v.length + 1 ∧
      (vector_push_back v x).Perm (x :: v) := by
    unfold vector_push_back
    exact ⟨by simp, List.perm_append_singleton x v⟩
  unfold insert_sorted_unique
  by_cases h0 : v.length = 0
  · rw [dif_pos h0]
    have hnil : v = [] := List.length_eq_zero.mp h0
    have hp := push_back_sorted v x hv (fun h => absurd hnil h)
    exact ⟨fun hx => absurd hx hp.1, fun _ => ⟨rfl, hp.2, hpush.1, hpush.2⟩⟩
  · rw [dif_neg h0]
    have hne : v ≠ [] := fun hnil => h0 (by rw [hnil]; rfl)
    by_cases hb : v.getLast hne < x
    · rw [if_pos hb]
      have hp := push_back_sorted v x hv (fun _ => hb)
      exact ⟨fun hx => absurd hx hp.1, fun _ => ⟨rfl, hp.2, hpush.1, hpush.2⟩⟩
    · rw [if_neg hb]
      simp only
      by_cases hp : (lower_bound v x).1 = v.length
      · rw [dif_pos hp]
        have hnot : x ∉ v := by
          intro hx
          obtain ⟨i, hi, hxi⟩ := List.getElem_of_mem hx
          have := (lower_bound_spec v x hv).1 i hi (by omega)
          rw [List.get_eq_getElem, hxi] at this
          exact lt_irrefl _ this
        exact ⟨fun hx => absurd hx hnot, fun hx => ⟨rfl, hins hx⟩⟩
      · rw [dif_neg hp]
        have hlt : (lower_bound v x).1 < v.length := lt_of_le_of_ne (lower_bound v x).2 hp
        by_cases hc : x < v.get ⟨(lower_bound v x).1, hlt⟩
        · rw [if_pos hc]
          have hnot : x ∉ v := by
            intro hx
            obtain ⟨i, hi, hxi⟩ := List.getElem_of_mem hx
            by_cases hip : i < (lower_bound v x).1
            · have := (lower_bound_spec v x hv).1 i hi hip
              rw [List.get_eq_getElem, hxi] at this
              exact lt_irrefl _ this
            · have hle : v.get ⟨(lower_bound v x).1, hlt⟩ ≤ v.get ⟨i, hi⟩ :=
                hv.rel_get_of_le (a := ⟨(lower_bound v x).1, hlt⟩) (b := ⟨i, hi⟩)
                  (by simp only [Fin.mk_le_mk]; omega)
              rw [List.get_eq_getElem (l := v) ⟨i, hi⟩] at hle
              simp only at hle
              rw [hxi] at hle
              exact lt_irrefl _ (lt_of_lt_of_le hc hle)
          exact ⟨fun hx => absurd hx hnot, fun hx => ⟨rfl, hins hx⟩⟩
        · rw [if_neg hc]
          have hge := (lower_bound_spec v x hv).2 _ hlt le_rfl
          have heq : v.get ⟨(lower_bound v x).1, hlt⟩ = x :=
            le_antisymm (not_lt.mp hc) hge
          exact ⟨fun _ => rfl, fun hx => absurd (heq ▸ List.get_mem v _ hlt) hx⟩

/-- C1. On an ascending-sorted vector `v`, `insert_sorted_unique(v, x)` returns false and
leaves `v` unchanged when `v` contains `x`; otherwise it returns true and the new vector is
ascending-sorted, one element longer, and made of the elements of `v` plus `x`. -/
theorem insert_sorted_unique_correct (v : List α) (x : α) (hv : v.Sorted (· ≤ ·)) :
    (x ∈ v → insert_sorted_unique v x = (false, v)) ∧
      (x ∉ v → (insert_sorted_unique v x).1 = true ∧
        (insert_sorted_unique v x).2.Sorted (· ≤ ·) ∧
        (insert_sorted_unique v x).2.length = v.length + 1 ∧
        (insert_sorted_unique v x).2.Perm (x :: v)) :=
  insert_sorted_unique_spec v x hv

/-- C1, witness: the scenario of the specification, `[1,3,5,7]` with 4 and then with 5. -/
theorem insert_sorted_unique_correct_witness :
    [1, 3, 5, 7].Sorted (fun a b : Nat => a ≤ b) ∧ 4 ∉ [1, 3, 5, 7] ∧
      insert_sorted_unique [1, 3, 5, 7] 4 = (true, [1, 3, 4, 5, 7]) ∧
      ((insert_sorted_unique [1, 3, 5, 7] 4).1 = true ∧
        (insert_sorted_unique [1, 3, 5, 7] 4).2.Sorted (· ≤ ·) ∧
        (insert_sorted_unique [1, 3, 5, 7] 4).2.length = [1, 3, 5, 7].length + 1 ∧
        (insert_sorted_unique [1, 3, 5, 7] 4).2.Perm (4 :: [1, 3, 5, 7])) ∧
      5 ∈ [1, 3, 4, 5, 7] ∧
      insert_sorted_unique [1, 3, 4, 5, 7] 5 = (false, [1, 3, 4, 5, 7]) :=
  ⟨by decide, by decide, by decide,
    (insert_sorted_unique_correct [1, 3, 5, 7] 4 (by decide)).2 (by decide),
    by decide,
    (insert_sorted_unique_correct [1, 3, 4, 5, 7] 5 (by decide)).1 (by decide)⟩

/-- C2. On an ascending-sorted vector `v`, `insert_sorted(v, x)` yields a vector that is
ascending-sorted, has length `|v| + 1`, contains `x`, and is a permutation of `v` with `x`
added. -/
theorem insert_sorted_correct (v : List α) (x : α) (hv : v.Sorted (· ≤ ·)) :
    (insert_sorted v x).Sorted (· ≤ ·) ∧ (insert_sorted v x).length = v.length + 1 ∧
      x ∈ insert_sorted v x ∧ (insert_sorted v x).Perm (x :: v) := by
  unfold insert_sorted
  exact ⟨vector_insert_sorted v _ x hv (lower_bound_take v x hv) (lower_bound_drop v x hv),
    vector_insert_length v _ x,
    (vector_insert_perm v _ x).mem_iff.mpr (List.mem_cons_self x v),
    vector_insert_perm v _ x⟩

/-- C2, witness: 3 inserted into `[1,3,3,7]`. -/
theorem insert_sorted_correct_witness :
    [1, 3, 3, 7].Sorted (fun a b : Nat => a ≤ b) ∧
      insert_sorted [1, 3, 3, 7] 3 = [1, 3, 3, 3, 7] ∧
      (insert_sorted [1, 3, 3, 7] 3).Sorted (· ≤ ·) ∧
      (insert_sorted [1, 3, 3, 7] 3).length = [1, 3, 3, 7].length + 1 ∧
      3 ∈ insert_sorted [1, 3, 3, 7] 3 ∧
      (insert_sorted [1, 3, 3, 7] 3).Perm (3 :: [1, 3, 3, 7]) :=
  ⟨by decide, by decide, insert_sorted_correct [1, 3, 3, 7] 3 (by decide)⟩

end SortedClaims

/-! ## The position chosen by `insert_sorted` -/

/-- In a strict weak ordering "not less than" is transitive. -/
theorem not_less_trans [LT α] [IsStrictWeakOrder α (fun a b => a < b)] {a b c : α}
    (h1 : ¬ a < b) (h2 : ¬ b < c) : ¬ a < c := by
  intro hac
  have hba : ¬ b < a := fun hba => h2 (IsTrans.trans (r := fun a b : α => a < b) _ _ _ hba hac)
  have hcb : ¬ c < b := fun hcb => h1 (IsTrans.trans (r := fun a b : α => a < b) _ _ _ hac hcb)
  exact (@IsStrictWeakOrder.incomp_trans α (fun a b => a < b) _ a b c ⟨h1, hba⟩
    ⟨h2, hcb⟩).1 hac

section WeakOrder

variable [LT α] [DecidableRel (fun a b : α => a < b)] [IsStrictWeakOrder α (fun a b => a < b)]

/-- The binary search on a vector that is ascending for a strict weak ordering (no element is
less than an earlier one): everything left of the result is less than `value`, nothing from
the result on is. -/
theorem lower_bound_loop_partition (v : List α) (value : α)
    (hv : v.Pairwise (fun a b => ¬ b < a)) :
    ∀ (fuel first count : Nat) (h : first + count ≤ v.length), count ≤ fuel →
      (∀ i (hi : i < v.length), i < first → v.get ⟨i, hi⟩ < value) →
      (∀ i (hi : i < v.length), first + count ≤ i → ¬ v.get ⟨i, hi⟩ < value) →
      (∀ i (hi : i < v.length), i < (lower_bound_loop v value fuel first count h).1 →
          v.get ⟨i, hi⟩ < value) ∧
        (∀ i (hi : i < v.length), (lower_bound_loop v value fuel first count h).1 ≤ i →
          ¬ v.get ⟨i, hi⟩ < value) := by
  have hsorted : ∀ i j (hi : i < v.length) (hj : j < v.length), i ≤ j →
      ¬ v.get ⟨j, hj⟩ < v.get ⟨i, hi⟩ := by
    intro i j hi hj hij
    rcases Nat.lt_or_ge i j with hlt | hge
    · exact List.pairwise_iff_get.mp hv ⟨i, hi⟩ ⟨j, hj⟩ hlt
    · have e : i = j := by omega
      subst e
      exact IsIrrefl.irrefl (r := fun a b : α => a < b) _
  intro fuel
  induction fuel with
  | zero =>
    intro first count h hc hlo hhi
    have h0 : count = 0 := by omega
    subst h0
    simp only [lower_bound_loop]
    refine ⟨hlo, fun i hi hle => hhi i hi ?_⟩
    have hle2 : first ≤ i := hle
    omega
  | succ fuel ih =>
    intro first count h hc hlo hhi
    unfold lower_bound_loop
    by_cases hpos : 0 < count
    · rw [dif_pos hpos]
      have hmid : first + count / 2 < v.length := by omega
      by_cases hlt : v.get ⟨first + count / 2, hmid⟩ < value
      · rw [if_pos hlt]
        apply ih _ _ _ (by omega)
        · intro i hi hi2
          by_contra hcon
          exact not_less_trans (hsorted i _ hi hmid (by omega)) hcon hlt
        · intro i hi hi2
          exact hhi i hi (by omega)
      · rw [if_neg hlt]
        apply ih _ _ _ (by omega) hlo
        intro i hi hi2
        exact not_less_trans (hsorted _ i hmid hi (by omega)) hlt
    · rw [dif_neg hpos]
      refine ⟨hlo, fun i hi hle => hhi i hi ?_⟩
      have hle2 : first ≤ i := hle
      omega

/-- On a vector that is ascending for a strict weak ordering `std::lower_bound` returns the
position that separates the elements less than `value` from the others. -/
theorem lower_bound_partition (v : List α) (value : α)
    (hv : v.Pairwise (fun a b => ¬ b < a)) :
    (∀ a ∈ v.take (lower_bound v value).1, a < value) ∧
      (∀ a ∈ v.drop (lower_bound v value).1, ¬ a < value) := by
  have h : (∀ i (hi : i < v.length), i < (lower_bound v value).1 → v.get ⟨i, hi⟩ < value) ∧
      (∀ i (hi : i < v.length), (lower_bound v value).1 ≤ i → ¬ v.get ⟨i, hi⟩ < value) :=
    lower_bound_loop_partition v value hv v.length 0 v.length (by omega) le_rfl
      (fun i _ hi => absurd hi (by omega)) (fun i hi hle => absurd hle (by omega))
  constructor
  · intro a ha
    obtain ⟨i, hi, rfl⟩ := List.getElem_of_mem ha
    rw [List.getElem_take]
    rw [List.length_take] at hi
    exact h.1 i (by omega) (by omega)
  · intro a ha
    obtain ⟨i, hi, rfl⟩ := List.getElem_of_mem ha
    rw [List.getElem_drop]
    rw [List.length_drop] at hi
    exact h.2 _ (by omega) (by omega)

/-- C13. For every element type whose `operator<` is a strict weak ordering (elements that
are equivalent for the ordering may be different), on a vector `v` that is ascending (no
element is less than an earlier one), `insert_sorted(v, x)` places `x` immediately before the
first element of `v` that is not less than `x`: the result `w` is `v[0..p)`, then `x`, then
`v[p..)`, so `w[p] == x` and `w` without index `p` is `v`; every element before `p` is less
than `x` and every element after `p` is not less than `x`. -/
theorem insert_sorted_position (v : List α) (x : α) (hv : v.Pairwise (fun a b => ¬ b < a)) :
    ∃ p, p ≤ v.length ∧ insert_sorted v x = v.take p ++ x :: v.drop p ∧
      (insert_sorted v x)[p]? = some x ∧
      (∀ i, i < p → ∃ a, (insert_sorted v x)[i]? = some a ∧ a < x) ∧
      (∀ i, p < i → i < (insert_sorted v x).length →
        ∃ a, (insert_sorted v x)[i]? = some a ∧ ¬ a < x) ∧
      (insert_sorted v x).eraseIdx p = v := by
  have hp := (lower_bound v x).2
  have hlt : (v.take (lower_bound v x).1).length = (lower_bound v x).1 := by
    rw [List.length_take]
    omega
  have hpart := lower_bound_partition v x hv
  refine ⟨(lower_bound v x).1, hp, rfl, ?_, ?_, ?_, ?_⟩
  · unfold insert_sorted vector_insert
    simp only
    rw [List.getElem?_append_right (by omega), hlt, Nat.sub_self, List.getElem?_cons_zero]
  · intro i hi
    unfold insert_sorted vector_insert
    simp only
    rw [List.getElem?_append_left (by omega)]
    have hi2 : i < (v.take (lower_bound v x).1).length := by omega
    refine ⟨(v.take (lower_bound v x).1)[i], List.getElem?_eq_getElem hi2, ?_⟩
    exact hpart.1 _ (List.getElem_mem hi2)
  · intro i hi hlen
    unfold insert_sorted vector_insert at hlen ⊢
    simp only at hlen ⊢
    rw [List.length_append, List.length_cons, hlt, List.length_drop] at hlen
    obtain ⟨k, hk⟩ : ∃ k, i - (lower_bound v x).1 = k + 1 :=
      ⟨i - (lower_bound v x).1 - 1, by omega⟩
    rw [List.getElem?_append_right (by omega), hlt, hk, List.getElem?_cons_succ]
    have hk2 : k < (v.drop (lower_bound v x).1).length := by
      rw [List.length_drop]
      omega
    refine ⟨(v.drop (lower_bound v x).1)[k], List.getElem?_eq_getElem hk2, ?_⟩
    exact hpart.2 _ (List.getElem_mem hk2)
  · unfold insert_sorted vector_insert
    simp only
    rw [List.eraseIdx_append_of_length_le (by omega), hlt, Nat.sub_self, List.eraseIdx_cons_zero,
      List.take_append_drop]

end WeakOrder

/-- C13, witness: items compared by their key alone.  The item with key 3 and tag 9 inserted
into a vector that holds two items of key 3 goes in front of both (after them it would stand
behind elements that are not less than it), and the two keep their order. -/
theorem insert_sorted_position_witness :
    ([⟨1, 0⟩, ⟨3, 1⟩, ⟨3, 2⟩, ⟨7, 3⟩] : List Keyed).Pairwise (fun a b => ¬ b < a) ∧
      (lower_bound ([⟨1, 0⟩, ⟨3, 1⟩, ⟨3, 2⟩, ⟨7, 3⟩] : List Keyed) ⟨3, 9⟩).1 = 1 ∧
      insert_sorted ([⟨1, 0⟩, ⟨3, 1⟩, ⟨3, 2⟩, ⟨7, 3⟩] : List Keyed) ⟨3, 9⟩ =
        [⟨1, 0⟩, ⟨3, 9⟩, ⟨3, 1⟩, ⟨3, 2⟩, ⟨7, 3⟩] ∧
      insert_sorted ([⟨1, 0⟩, ⟨3, 1⟩, ⟨3, 2⟩, ⟨7, 3⟩] : List Keyed) ⟨3, 9⟩ ≠
        [⟨1, 0⟩, ⟨3, 1⟩, ⟨3, 2⟩, ⟨3, 9⟩, ⟨7, 3⟩] ∧
      ∃ p, p ≤ ([⟨1, 0⟩, ⟨3, 1⟩, ⟨3, 2⟩, ⟨7, 3⟩] : List Keyed).length ∧
        insert_sorted ([⟨1, 0⟩, ⟨3, 1⟩, ⟨3, 2⟩, ⟨7, 3⟩] : List Keyed) ⟨3, 9⟩ =
          ([⟨1, 0⟩, ⟨3, 1⟩, ⟨3, 2⟩, ⟨7, 3⟩] : List Keyed).take p ++
            ⟨3, 9⟩ :: ([⟨1, 0⟩, ⟨3, 1⟩, ⟨3, 2⟩, ⟨7, 3⟩] : List Keyed).drop p ∧
        (insert_sorted ([⟨1, 0⟩, ⟨3, 1⟩, ⟨3, 2⟩, ⟨7, 3⟩] : List Keyed) ⟨3, 9⟩)[p]? =
          some ⟨3, 9⟩ ∧
        (∀ i, i < p →
          ∃ a, (insert_sorted ([⟨1, 0⟩, ⟨3, 1⟩, ⟨3, 2⟩, ⟨7, 3⟩] : List Keyed) ⟨3, 9⟩)[i]? =
            some a ∧ a < (⟨3, 9⟩ : Keyed)) ∧
        (∀ i, p < i →
          i < (insert_sorted ([⟨1, 0⟩, ⟨3, 1⟩, ⟨3, 2⟩, ⟨7, 3⟩] : List Keyed) ⟨3, 9⟩).length →
          ∃ a, (insert_sorted ([⟨1, 0⟩, ⟨3, 1⟩, ⟨3, 2⟩, ⟨7, 3⟩] : List Keyed) ⟨3, 9⟩)[i]? =
            some a ∧ ¬ a < (⟨3, 9⟩ : Keyed)) ∧
        (insert_sorted ([⟨1, 0⟩, ⟨3, 1⟩, ⟨3, 2⟩, ⟨7, 3⟩] : List Keyed) ⟨3, 9⟩).eraseIdx p =
          [⟨1, 0⟩, ⟨3, 1⟩, ⟨3, 2⟩, ⟨7, 3⟩] :=
  ⟨by decide, by decide, by decide, by decide,
    insert_sorted_position ([⟨1, 0⟩, ⟨3, 1⟩, ⟨3, 2⟩, ⟨7, 3⟩] : List Keyed) ⟨3, 9⟩ (by decide)⟩



/-! ## The append fast path and strict ascending order -/

theorem vector_insert_length_eq_push_back (v : List α) (item : α) :
    vector_insert v v.length item = vector_push_back v item := by
  unfold vector_insert vector_push_back
  rw [List.take_length, List.drop_length]

section SortedClaims3

variable [LinearOrder α]

/-- In a sorted vector whose last element is less than `item`, every element is. -/
theorem all_lt_of_back_lt (v : List α) (item : α) (hv : v.Sorted (· ≤ ·))
    (hback : ∀ h : v ≠ [], v.getLast h < item) : ∀ a ∈ v, a < item := by
  intro a ha
  have hne : v ≠ [] := List.ne_nil_of_mem ha
  have hsplit := List.dropLast_append_getLast hne
  rw [← hsplit] at ha hv
  rcases List.mem_append.mp ha with h1 | h1
  · exact lt_of_le_of_lt ((List.pairwise_append.mp hv).2.2 a h1 _ (List.mem_singleton_self _))
      (hback hne)
  · rw [List.mem_singleton.mp h1]
    exact hback hne

/-- When every element is less than `value`, `std::lower_bound` returns `end()`. -/
theorem lower_bound_eq_length (v : List α) (value : α) (hv : v.Sorted (· ≤ ·))
    (hall : ∀ a ∈ v, a < value) : (lower_bound v value).1 = v.length := by
  by_contra hne
  have hlt : (lower_bound v value).1 < v.length := lt_of_le_of_ne (lower_bound v value).2 hne
  have h1 := (lower_bound_spec v value hv).2 _ hlt le_rfl
  have h2 := hall _ (List.get_mem v _ hlt)
  exact lt_irrefl _ (lt_of_le_of_lt h1 h2)

/-- C17. The append fast path of `insert_sorted_unique` is a pure optimisation: on an
ascending-sorted vector the function returns the same boolean and the same vector as the
variant without lines 44-47, which always searches with `std::lower_bound` and then checks
for equality. -/
theorem insert_sorted_unique_fast_path (v : List α) (x : α) (hv : v.Sorted (· ≤ ·)) :
    insert_sorted_unique v x = insert_sorted_unique_slow v x := by
  have hfast : (∀ a ∈ v, a < x) →
      insert_sorted_unique_slow v x = (true, vector_push_back v x) := by
    intro hall
    have hp := lower_bound_eq_length v x hv hall
    unfold insert_sorted_unique_slow
    simp only
    rw [dif_pos hp, hp, vector_insert_length_eq_push_back]
  unfold insert_sorted_unique
  by_cases h0 : v.length = 0
  · rw [dif_pos h0]
    have hnil : v = [] := List.length_eq_zero.mp h0
    exact (hfast (fun a ha => by rw [hnil] at ha; cases ha)).symm
  · rw [dif_neg h0]
    have hne : v ≠ [] := fun hnil => h0 (by rw [hnil]; rfl)
    by_cases hb : v.getLast hne < x
    · rw [if_pos hb]
      exact (hfast (all_lt_of_back_lt v x hv (fun _ => hb))).symm
    · rw [if_neg hb]
      rfl

/-- C17, witness: both variants on `[1,3,5,7]` with 9 (fast path), 4 and 5. -/
theorem insert_sorted_unique_fast_path_witness :
    [1, 3, 5, 7].Sorted (fun a b : Nat => a ≤ b) ∧
      insert_sorted_unique [1, 3, 5, 7] 9 = insert_sorted_unique_slow [1, 3, 5, 7] 9 ∧
      insert_sorted_unique_slow [1, 3, 5, 7] 9 = (true, [1, 3, 5, 7, 9]) ∧
      insert_sorted_unique_slow [1, 3, 5, 7] 4 = (true, [1, 3, 4, 5, 7]) ∧
      insert_sorted_unique_slow [1, 3, 5, 7] 5 = (false, [1, 3, 5, 7]) :=
  ⟨by decide, insert_sorted_unique_fast_path [1, 3, 5, 7] 9 (by decide), by decide, by decide,
    by decide⟩

/-- One call of `insert_sorted_unique` on a strictly ascending vector: the vector stays
strictly ascending and contains `x` afterwards. -/
theorem insert_sorted_unique_strict_step (v : List α) (x : α) (hv : v.Sorted (· < ·)) :
    (insert_sorted_unique v x).2.Sorted (· < ·) ∧ x ∈ (insert_sorted_unique v x).2 := by
  have hle : v.Sorted (· ≤ ·) := hv.le_of_lt
  have hc := insert_sorted_unique_spec v x hle
  by_cases hx : x ∈ v
  · rw [hc.1 hx]
    exact ⟨hv, hx⟩
  · obtain ⟨-, hs, -, hperm⟩ := hc.2 hx
    have hnodup : (insert_sorted_unique v x).2.Nodup :=
      hperm.nodup_iff.mpr (List.nodup_cons.mpr ⟨hx, hv.nodup⟩)
    exact ⟨hs.lt_of_le hnodup, hperm.mem_iff.mpr (List.mem_cons_self x v)⟩

theorem insert_sorted_unique_foldl_strict (items : List α) :
    ∀ v : List α, v.Sorted (· < ·) →
      (items.foldl (fun v item => (insert_sorted_unique v item).2) v).Sorted (· < ·) := by
  induction items with
  | nil => intro v hv; exact hv
  | cons item items ih =>
    intro v hv
    rw [List.foldl_cons]
    exact ih _ (insert_sorted_unique_strict_step v item hv).1

/-- C20. `insert_sorted_unique` preserves strict ascending order; hence a vector built from
the empty vector with `insert_sorted_unique` only is strictly ascending (sorted and free of
duplicates); and a second call with the same `x` returns false and changes nothing. -/
theorem insert_sorted_unique_strict (v : List α) (x : α) (items : List α)
    (hv : v.Sorted (· < ·)) :
    (insert_sorted_unique v x).2.Sorted (· < ·) ∧
      (insert_sorted_unique_all items).Sorted (· < ·) ∧
      (insert_sorted_unique_all items).Sorted (· ≤ ·) ∧
      (insert_sorted_unique_all items).Nodup ∧
      insert_sorted_unique (insert_sorted_unique v x).2 x =
        (false, (insert_sorted_unique v x).2) := by
  have hstep := insert_sorted_unique_strict_step v x hv
  have hall := insert_sorted_unique_foldl_strict items [] List.sorted_nil
  refine ⟨hstep.1, hall, hall.le_of_lt, hall.nodup, ?_⟩
  exact (insert_sorted_unique_spec _ x hstep.1.le_of_lt).1 hstep.2

/-- C20, witness: 4 inserted twice into `[1,3,5,7]`, and the vector built from the items
5, 1, 5, 3, 1, 7. -/
theorem insert_sorted_unique_strict_witness :
    [1, 3, 5, 7].Sorted (fun a b : Nat => a < b) ∧
      insert_sorted_unique_all [5, 1, 5, 3, 1, 7] = [1, 3, 5, 7] ∧
      ((insert_sorted_unique [1, 3, 5, 7] 4).2.Sorted (· < ·) ∧
        (insert_sorted_unique_all [5, 1, 5, 3, 1, 7]).Sorted (· < ·) ∧
        (insert_sorted_unique_all [5, 1, 5, 3, 1, 7]).Sorted (· ≤ ·) ∧
        (insert_sorted_unique_all [5, 1, 5, 3, 1, 7]).Nodup ∧
        insert_sorted_unique (insert_sorted_unique [1, 3, 5, 7] 4).2 4 =
          (false, (insert_sorted_unique [1, 3, 5, 7] 4).2)) :=
  ⟨by decide, by decide,
    insert_sorted_unique_strict [1, 3, 5, 7] 4 [5, 1, 5, 3, 1, 7] (by decide)⟩

end SortedClaims3

/-! ## Properties of TrivialVectorBase and vector -/

theorem SIZE_TYPE_MOD_eq : SIZE_TYPE_MOD = 4294967296 := by
  unfold SIZE_TYPE_MOD
  norm_num

namespace TrivialVectorBase

theorem store_spec {s s1 : TrivialVectorBase α} {itemSize : Nat} {p : Ptr} {x : Option α}
    (h : store s itemSize p x = some s1) :
    s.inBlock itemSize p ∧ s1.mBegin = s.mBegin ∧ s1.mItemCount = s.mItemCount ∧
      s1.mCapacity = s.mCapacity ∧ ∀ i, s1.mem i = if i = p.idx then x else s.mem i := by
  unfold store at h
  by_cases hp : s.inBlock itemSize p
  · rw [if_pos hp] at h
    cases h
    exact ⟨hp, rfl, rfl, rfl, fun _ => rfl⟩
  · rw [if_neg hp] at h
    cases h

theorem store_defined (s : TrivialVectorBase α) (itemSize : Nat) (p : Ptr) (x : Option α)
    (hp : s.inBlock itemSize p) :
    store s itemSize p x = some { s with mem := fun i => if i = p.idx then x else s.mem i } := by
  unfold store
  rw [if_pos hp]

theorem load_defined (s : TrivialVectorBase α) (itemSize : Nat) (p : Ptr)
    (hp : s.inBlock itemSize p) : load s itemSize p = some (s.mem p.idx) := by
  unfold load
  rw [if_pos hp]

/-- While `mCapacity * itemSize` fits 32 bits the block has exactly `mCapacity` slots. -/
theorem block_size_of_fits (s : TrivialVectorBase α) (itemSize : Nat)
    (hfit : s.mCapacity * itemSize < SIZE_TYPE_MOD) :
    s.block_size itemSize = s.mCapacity * itemSize :=
  Nat.mod_eq_of_lt hfit

/-- A slot of the owned block has an index below the capacity. -/
theorem lt_of_inBlock {s : TrivialVectorBase α} {itemSize : Nat} {p : Ptr}
    (hpos : 0 < itemSize) (h : s.inBlock itemSize p) : p.idx < s.mCapacity := by
  have h1 : (p.idx + 1) * itemSize ≤ s.mCapacity * itemSize :=
    Nat.le_trans h.2 (Nat.mod_le _ _)
  exact Nat.le_of_mul_le_mul_right h1 hpos

/-- In a block with room for `mCapacity` items the slots are those of index below the
capacity. -/
theorem inBlock_of_lt (s : TrivialVectorBase α) (itemSize : Nat) (p : Ptr)
    (hfit : s.mCapacity * itemSize < SIZE_TYPE_MOD) (hb : p.block = s.mBegin)
    (hi : p.idx < s.mCapacity) : s.inBlock itemSize p := by
  refine ⟨hb, ?_⟩
  rw [block_size_of_fits s itemSize hfit]
  exact Nat.mul_le_mul_right _ hi

/-- While `mItemCount * itemSize` fits 32 bits, `end()` is the slot `mItemCount`. -/
theorem end_eq (s : TrivialVectorBase α) (itemSize : Nat) (hpos : 0 < itemSize)
    (h : s.mItemCount * itemSize < SIZE_TYPE_MOD) :
    s.end_ itemSize = ⟨s.mBegin, s.mItemCount⟩ := by
  unfold end_
  rw [Nat.mod_eq_of_lt h, Nat.mul_div_cancel _ hpos]

/-- The members after a call of `set_capacity` that returns. -/
theorem set_capacity_fields {s s1 : TrivialVectorBase α} {n itemSize addr : Nat}
    (h : set_capacity s n itemSize addr = some s1) :
    s1.mItemCount = s.mItemCount ∧ s1.mCapacity = n ∧ (n = s.mCapacity → s1 = s) ∧
      (n ≠ s.mCapacity → s1.mBegin = addr) := by
  unfold set_capacity at h
  by_cases hn : n = s.mCapacity
  · rw [if_pos hn] at h
    have h2 := Option.some.inj h
    subst h2
    exact ⟨rfl, hn.symm, fun _ => rfl, fun h3 => absurd hn h3⟩
  · rw [if_neg hn] at h
    simp only at h
    generalize ((if s.mItemCount < n then s.mItemCount else n) * itemSize) % SIZE_TYPE_MOD =
      len at h
    split at h
    · have h2 := Option.some.inj h
      subst h2
      exact ⟨rfl, rfl, fun h3 => absurd h3 hn, fun _ => rfl⟩
    · cases h

/-- What `set_capacity` does when neither byte count wraps and the first `min(mItemCount, n)`
slots lie in the old block. -/
theorem set_capacity_spec (s : TrivialVectorBase α) (n itemSize addr : Nat)
    (hfit : s.mCapacity * itemSize < SIZE_TYPE_MOD) (hn : n * itemSize < SIZE_TYPE_MOD)
    (h : s.mItemCount ≤ s.mCapacity ∨ n ≤ s.mCapacity) :
    ∃ s1, set_capacity s n itemSize addr = some s1 ∧ s1.mCapacity = n ∧
      s1.mItemCount = s.mItemCount ∧
      (∀ i, i < s.mItemCount → i < n → s1.mem i = s.mem i) ∧
      (n = s.mCapacity → s1 = s) ∧ (n ≠ s.mCapacity → s1.mBegin = addr) := by
  unfold set_capacity
  by_cases hne : n = s.mCapacity
  · rw [if_pos hne]
    exact ⟨s, rfl, hne.symm, rfl, fun _ _ _ => rfl, fun _ => rfl, fun h2 => absurd hne h2⟩
  · rw [if_neg hne]
    simp only
    have hlen_n : (if s.mItemCount < n then s.mItemCount else n) ≤ n := by
      split <;> omega
    have hlen_c : (if s.mItemCount < n then s.mItemCount else n) ≤ s.mCapacity := by
      split <;> omega
    have hmod : ((if s.mItemCount < n then s.mItemCount else n) * itemSize) % SIZE_TYPE_MOD =
        (if s.mItemCount < n then s.mItemCount else n) * itemSize :=
      Nat.mod_eq_of_lt (Nat.lt_of_le_of_lt (Nat.mul_le_mul_right _ hlen_n) hn)
    rw [hmod, Nat.mod_eq_of_lt hn, block_size_of_fits s itemSize hfit]
    rw [if_pos ⟨Nat.mul_le_mul_right _ hlen_n, Nat.mul_le_mul_right _ hlen_c⟩]
    refine ⟨_, rfl, rfl, rfl, ?_, fun h2 => absurd h2 hne, fun _ => rfl⟩
    intro i hi hin
    have : i + 1 ≤ (if s.mItemCount < n then s.mItemCount else n) := by
      split <;> omega
    simp only [if_pos (Nat.mul_le_mul_right itemSize this)]

/-- The defect of lines 101-102: a requested capacity `n` whose byte size `n * itemSize` wraps
to less than the bytes of the `mItemCount <= n` items to copy.  `malloc` allocates the wrapped
size and `memcpy` overruns the new block: the call has undefined behaviour. -/
theorem set_capacity_wrap (s : TrivialVectorBase α) (n itemSize addr : Nat)
    (hne : n ≠ s.mCapacity) (hle : s.mItemCount ≤ n)
    (hcount : s.mItemCount * itemSize < SIZE_TYPE_MOD)
    (hov : (n * itemSize) % SIZE_TYPE_MOD < s.mItemCount * itemSize) :
    set_capacity s n itemSize addr = none := by
  unfold set_capacity
  rw [if_neg hne]
  simp only
  have hlen : (if s.mItemCount < n then s.mItemCount else n) = s.mItemCount := by
    split <;> omega
  rw [hlen, Nat.mod_eq_of_lt hcount, if_neg]
  intro hcon
  exact Nat.lt_irrefl _ (Nat.lt_of_lt_of_le hov hcon.1)

end TrivialVectorBase

namespace vector

open TrivialVectorBase

/-- C4. On a vector with `size() <= capacity()` whose block has room for `capacity()` items,
and for `n >= size()`: while `n * sizeof(T)` fits 32 bits, `reserve(n)` returns with
`capacity() == n`, `size()` unchanged and every element below `size()` unchanged; but when the
product wraps to less than the `size() * sizeof(T)` bytes to copy, `malloc` allocates the
wrapped size, `memcpy` overruns the new block and the call has undefined behaviour. -/
theorem reserve_byte_size_wrap (s : TrivialVectorBase α) (itemSize addr n : Nat)
    (hinv : size s ≤ capacity s) (hfit : capacity s * itemSize < SIZE_TYPE_MOD)
    (hn : size s ≤ n) :
    (n * itemSize < SIZE_TYPE_MOD →
      ∃ s1, reserve s itemSize addr n = some s1 ∧ capacity s1 = n ∧ size s1 = size s ∧
        ∀ i, i < size s → index s1 i = index s i) ∧
    ((n * itemSize) % SIZE_TYPE_MOD < size s * itemSize →
      reserve s itemSize addr n = none) := by
  unfold size capacity at hinv
  unfold capacity at hfit
  unfold size at hn
  have hcount : s.mItemCount * itemSize < SIZE_TYPE_MOD :=
    Nat.lt_of_le_of_lt (Nat.mul_le_mul_right _ hinv) hfit
  constructor
  · intro hnfit
    obtain ⟨s1, h1, hcap, hcnt, hmem, -, -⟩ :=
      set_capacity_spec s n itemSize addr hfit hnfit (Or.inl hinv)
    refine ⟨s1, h1, hcap, hcnt, fun i hi => hmem i hi ?_⟩
    unfold size at hi
    omega
  · intro hov
    unfold size at hov
    have hne : n ≠ s.mCapacity := by
      intro he
      rw [he, Nat.mod_eq_of_lt hfit] at hov
      exact Nat.lt_irrefl _ (Nat.lt_of_lt_of_le hov (Nat.mul_le_mul_right _ hinv))
    exact set_capacity_wrap s n itemSize addr hne hn hcount hov

/-- C4, the failing input: `reserve(1073741824)` on the `vector<int>` `[10, 20, 30]` of
capacity 3 requests `1073741824 * 4 = 2^32` bytes, which wraps to 0, and copies 12 bytes;
`reserve(10)` does what the claim says. -/
theorem reserve_byte_size_wrap_witness :
    size (ofList [10, 20, 30] 3 7) ≤ capacity (ofList [10, 20, 30] 3 7) ∧
      capacity (ofList [10, 20, 30] 3 7) * 4 < SIZE_TYPE_MOD ∧
      size (ofList [10, 20, 30] 3 7) ≤ 1073741824 ∧
      (1073741824 * 4) % SIZE_TYPE_MOD < size (ofList [10, 20, 30] 3 7) * 4 ∧
      reserve (ofList [10, 20, 30] 3 7) 4 8 1073741824 = none ∧
      (reserve (ofList [10, 20, 30] 3 7) 4 8 10).map
          (fun s => (s.mBegin, size s, capacity s, elements s)) =
        some (8, 3, 10, [some 10, some 20, some 30]) :=
  ⟨by decide, by decide, by decide, by decide,
    (reserve_byte_size_wrap (ofList [10, 20, 30] 3 7) 4 8 1073741824 (by decide) (by decide)
      (by decide)).2 (by decide),
    by decide⟩

/-- C6. Move-constructing a vector from `src` leaves `src` with `size() == 0`,
`capacity() == 0` and a null data pointer, and the new vector has the data pointer, the size,
the capacity and the elements, in order, that `src` had before the move. -/
theorem move_construct_correct (src : TrivialVectorBase α) :
    size (move_construct src).2 = 0 ∧ capacity (move_construct src).2 = 0 ∧
      (move_construct src).2.mBegin = nullptr ∧
      (move_construct src).1.mBegin = src.mBegin ∧
      size (move_construct src).1 = size src ∧
      capacity (move_construct src).1 = capacity src ∧
      (∀ i, index (move_construct src).1 i = index src i) ∧
      elements (move_construct src).1 = elements src :=
  ⟨rfl, rfl, rfl, rfl, rfl, rfl, fun _ => rfl, rfl⟩

/-- C9. A requested capacity `c` for which `c * 3 + 1` does not fit 32 bits: whenever
`assert_capacity(c)` returns, the capacity is below `c`; and it does return, with the capacity
below `c`, on every state with `count <= capacity` whose block has room for its capacity and
for which the byte size of the new block fits 32 bits. -/
theorem assert_capacity_overflow (s : TrivialVectorBase α) (c itemSize addr : Nat)
    (hlt : s.mCapacity < c) (hc : c < SIZE_TYPE_MOD) (hov : SIZE_TYPE_MOD ≤ c * 3 + 1) :
    (∀ s1, assert_capacity s c itemSize addr = some s1 → s1.mCapacity < c) ∧
    (s.mItemCount ≤ s.mCapacity → s.mCapacity * itemSize < SIZE_TYPE_MOD →
      ((c * 3 + 1) % SIZE_TYPE_MOD / 2) * itemSize < SIZE_TYPE_MOD →
      ∃ s1, assert_capacity s c itemSize addr = some s1 ∧ s1.mCapacity < c) := by
  have hsmall : (c * 3 + 1) % SIZE_TYPE_MOD / 2 < c := by
    rw [SIZE_TYPE_MOD_eq] at hc hov ⊢
    have hm : (c * 3 + 1) % 4294967296 + 4294967296 ≤ c * 3 + 1 := by omega
    have hm2 : (c * 3 + 1) % 4294967296 < 4294967296 := Nat.mod_lt _ (by norm_num)
    omega
  have hall : ∀ s1, assert_capacity s c itemSize addr = some s1 → s1.mCapacity < c := by
    intro s1 h1
    unfold assert_capacity assert_capacity_slow at h1
    rw [if_pos hlt] at h1
    rw [(set_capacity_fields h1).2.1]
    exact hsmall
  refine ⟨hall, fun hinv hfit hnew => ?_⟩
  obtain ⟨s1, h1, -⟩ :=
    set_capacity_spec s ((c * 3 + 1) % SIZE_TYPE_MOD / 2) itemSize addr hfit hnew (Or.inl hinv)
  have h2 : assert_capacity s c itemSize addr = some s1 := by
    unfold assert_capacity assert_capacity_slow
    rw [if_pos hlt]
    exact h1
  exact ⟨s1, h2, hall s1 h2⟩

/-- C9, the failing input: `assert_capacity(1431655765)` on an empty `vector<int>` leaves the
capacity at 0, and so does `resize(1431655765)`, which then sets the size to 1431655765. -/
theorem assert_capacity_overflow_witness :
    (empty_vector : TrivialVectorBase Nat).mCapacity < 1431655765 ∧
      1431655765 < SIZE_TYPE_MOD ∧ SIZE_TYPE_MOD ≤ 1431655765 * 3 + 1 ∧
      (empty_vector : TrivialVectorBase Nat).mItemCount ≤
        (empty_vector : TrivialVectorBase Nat).mCapacity ∧
      (empty_vector : TrivialVectorBase Nat).mCapacity * 4 < SIZE_TYPE_MOD ∧
      ((1431655765 * 3 + 1) % SIZE_TYPE_MOD / 2) * 4 < SIZE_TYPE_MOD ∧
      (∃ s1, assert_capacity (empty_vector : TrivialVectorBase Nat) 1431655765 4 1 = some s1 ∧
        s1.mCapacity < 1431655765) ∧
      assert_capacity (empty_vector : TrivialVectorBase Nat) 1431655765 4 1 =
        some empty_vector ∧
      (∃ s1, resize (empty_vector : TrivialVectorBase Nat) 4 1 1431655765 = some s1 ∧
        capacity s1 = 0 ∧ size s1 = 1431655765) :=
  ⟨by decide, by decide, by decide, by decide, by decide, by decide,
    (assert_capacity_overflow empty_vector 1431655765 4 1 (by decide) (by decide)
      (by decide)).2 (by decide) (by decide) (by decide),
    rfl, ⟨_, rfl, rfl, rfl⟩⟩

/-- C10. A requested capacity `n` below the current count, on a state with
`count <= capacity` whose block has room for its capacity: `set_capacity(n)` returns with the
count unchanged and the capacity `n`, so that `count <= capacity` no longer holds. -/
theorem set_capacity_below_count (s : TrivialVectorBase α) (n itemSize addr : Nat)
    (hinv : s.mItemCount ≤ s.mCapacity) (hfit : s.mCapacity * itemSize < SIZE_TYPE_MOD)
    (hn : n < s.mItemCount) :
    ∃ s1, set_capacity s n itemSize addr = some s1 ∧ s1.mItemCount = s.mItemCount ∧
      s1.mCapacity = n ∧ ¬ s1.mItemCount ≤ s1.mCapacity := by
  have hnfit : n * itemSize < SIZE_TYPE_MOD :=
    Nat.lt_of_le_of_lt (Nat.mul_le_mul_right _ (by omega)) hfit
  obtain ⟨s1, h1, hcap, hcount, -⟩ :=
    set_capacity_spec s n itemSize addr hfit hnfit (Or.inl hinv)
  exact ⟨s1, h1, hcount, hcap, by omega⟩

/-- C10, the failing input: `reserve(2)` on the `vector<int>` `[1, 2, 3]` of capacity 3 gives
a vector with `size() == 3` and `capacity() == 2`. -/
theorem set_capacity_below_count_witness :
    (ofList [1, 2, 3] 3 7).mItemCount ≤ (ofList [1, 2, 3] 3 7).mCapacity ∧
      (ofList [1, 2, 3] 3 7).mCapacity * 4 < SIZE_TYPE_MOD ∧
      2 < (ofList [1, 2, 3] 3 7).mItemCount ∧
      (∃ s1, set_capacity (ofList [1, 2, 3] 3 7) 2 4 9 = some s1 ∧
        s1.mItemCount = (ofList [1, 2, 3] 3 7).mItemCount ∧ s1.mCapacity = 2 ∧
        ¬ s1.mItemCount ≤ s1.mCapacity) ∧
      ∃ s1, reserve (ofList [1, 2, 3] 3 7) 4 9 2 = some s1 ∧ size s1 = 3 ∧ capacity s1 = 2 :=
  ⟨by decide, by decide, by decide,
    set_capacity_below_count (ofList [1, 2, 3] 3 7) 2 4 9 (by decide) (by decide) (by decide),
    ⟨_, rfl, rfl, rfl⟩⟩

end vector


/-! ### The standard algorithms on the slots of one block -/

section Algorithms

open TrivialVectorBase

/-- A run of `std::move` never touches the three members. -/
theorem std_move_loop_fields (itemSize : Nat) :
    ∀ (n : Nat) (s s1 : TrivialVectorBase α) (first d_first : Ptr),
    std_move_loop itemSize n s first d_first = some s1 →
      s1.mBegin = s.mBegin ∧ s1.mItemCount = s.mItemCount ∧ s1.mCapacity = s.mCapacity := by
  intro n
  induction n with
  | zero =>
    intro s s1 first d_first h
    simp only [std_move_loop] at h
    cases h
    exact ⟨rfl, rfl, rfl⟩
  | succ n ih =>
    intro s s1 first d_first h
    simp only [std_move_loop] at h
    cases hl : load s itemSize first with
    | none => rw [hl] at h; cases h
    | some x =>
      rw [hl] at h
      simp only at h
      cases hs : store s itemSize d_first x with
      | none => rw [hs] at h; cases h
      | some s2 =>
        rw [hs] at h
        simp only at h
        obtain ⟨-, hb, hc, hk, -⟩ := store_spec hs
        obtain ⟨hb2, hc2, hk2⟩ := ih s2 s1 _ _ h
        exact ⟨hb2.trans hb, hc2.trans hc, hk2.trans hk⟩

/-- Moving `n` slots of the owned block towards the front, in a block with room for its
capacity: the call is defined and slot `d_first + k` receives the old content of slot
`first + k`. -/
theorem std_move_loop_spec (itemSize : Nat) :
    ∀ (n : Nat) (s : TrivialVectorBase α) (first d_first : Ptr),
    s.mCapacity * itemSize < SIZE_TYPE_MOD →
    first.block = s.mBegin → d_first.block = s.mBegin → d_first.idx ≤ first.idx →
    first.idx + n ≤ s.mCapacity →
    ∃ s1, std_move_loop itemSize n s first d_first = some s1 ∧ s1.mBegin = s.mBegin ∧
      s1.mItemCount = s.mItemCount ∧ s1.mCapacity = s.mCapacity ∧
      ∀ i, s1.mem i =
        if d_first.idx ≤ i ∧ i < d_first.idx + n then s.mem (first.idx + (i - d_first.idx))
        else s.mem i := by
  intro n
  induction n with
  | zero =>
    intro s first d_first _ _ _ _ _
    refine ⟨s, rfl, rfl, rfl, rfl, fun i => ?_⟩
    rw [if_neg (by omega)]
  | succ n ih =>
    intro s first d_first hfit hfb hdb hle hcap
    have hin1 : s.inBlock itemSize first := inBlock_of_lt s itemSize first hfit hfb (by omega)
    have hin2 : s.inBlock itemSize d_first :=
      inBlock_of_lt s itemSize d_first hfit hdb (by omega)
    simp only [std_move_loop, load_defined s itemSize first hin1,
      store_defined s itemSize d_first _ hin2]
    obtain ⟨s1, h1, hb, hc, hk, hmem⟩ :=
      ih { s with mem := fun i => if i = d_first.idx then s.mem first.idx else s.mem i }
        (first.add 1) (d_first.add 1) hfit hfb hdb
        (by simp only [Ptr.add]; omega) (by simp only [Ptr.add]; omega)
    refine ⟨s1, h1, hb, hc, hk, fun i => ?_⟩
    rw [hmem i]
    simp only [Ptr.add]
    split_ifs <;> first | rfl | (congr 1; omega)

/-- A run of `std::move_backward` never touches the three members. -/
theorem std_move_backward_loop_fields (itemSize : Nat) :
    ∀ (n : Nat) (s s1 : TrivialVectorBase α) (last d_last : Ptr),
      std_move_backward_loop itemSize n s last d_last = some s1 →
        s1.mBegin = s.mBegin ∧ s1.mItemCount = s.mItemCount ∧ s1.mCapacity = s.mCapacity := by
  intro n
  induction n with
  | zero =>
    intro s s1 last d_last h
    simp only [std_move_backward_loop] at h
    cases h
    exact ⟨rfl, rfl, rfl⟩
  | succ n ih =>
    intro s s1 last d_last h
    simp only [std_move_backward_loop] at h
    split at h
    · cases h
    · cases hl : load s itemSize ⟨last.block, last.idx - 1⟩ with
      | none => rw [hl] at h; cases h
      | some x =>
        rw [hl] at h
        simp only at h
        cases hs : store s itemSize ⟨d_last.block, d_last.idx - 1⟩ x with
        | none => rw [hs] at h; cases h
        | some s2 =>
          rw [hs] at h
          simp only at h
          obtain ⟨-, hb, hc, hk, -⟩ := store_spec hs
          obtain ⟨hb2, hc2, hk2⟩ := ih s2 s1 _ _ h
          exact ⟨hb2.trans hb, hc2.trans hc, hk2.trans hk⟩

/-- A run of `std::move_backward` of at least one element writes the slot before `d_last`,
which therefore lies in the owned block. -/
theorem std_move_backward_loop_inBlock (itemSize n : Nat) (s s1 : TrivialVectorBase α)
    (last d_last : Ptr)
    (h : std_move_backward_loop itemSize (n + 1) s last d_last = some s1) :
    d_last.idx ≠ 0 ∧ s.inBlock itemSize ⟨d_last.block, d_last.idx - 1⟩ := by
  simp only [std_move_backward_loop] at h
  split at h
  · cases h
  · rename_i hz
    cases hl : load s itemSize ⟨last.block, last.idx - 1⟩ with
    | none => rw [hl] at h; cases h
    | some x =>
      rw [hl] at h
      simp only at h
      cases hs : store s itemSize ⟨d_last.block, d_last.idx - 1⟩ x with
      | none => rw [hs] at h; cases h
      | some s2 =>
        obtain ⟨hin, -⟩ := store_spec hs
        exact ⟨fun h0 => hz (Or.inr h0), hin⟩

/-- Moving the `n` slots before `last` one slot towards the end, inside an owned block with
room for its capacity: the call is defined and slot `k` receives the old content of slot
`k - 1`. -/
theorem std_move_backward_loop_spec (itemSize : Nat) :
    ∀ (n : Nat) (s : TrivialVectorBase α) (last d_last : Ptr),
    s.mCapacity * itemSize < SIZE_TYPE_MOD →
    last.block = s.mBegin → d_last.block = s.mBegin → d_last.idx = last.idx + 1 →
    n ≤ last.idx → last.idx < s.mCapacity →
    ∃ s1, std_move_backward_loop itemSize n s last d_last = some s1 ∧ s1.mBegin = s.mBegin ∧
      s1.mItemCount = s.mItemCount ∧ s1.mCapacity = s.mCapacity ∧
      ∀ i, s1.mem i =
        if last.idx - n < i ∧ i ≤ last.idx then s.mem (i - 1) else s.mem i := by
  intro n
  induction n with
  | zero =>
    intro s last d_last _ _ _ _ _ _
    refine ⟨s, rfl, rfl, rfl, rfl, fun i => ?_⟩
    rw [if_neg (by omega)]
  | succ n ih =>
    intro s last d_last hfit hlb hdb hd hn hcap
    have hin1 : s.inBlock itemSize ⟨last.block, last.idx - 1⟩ :=
      inBlock_of_lt s itemSize _ hfit hlb (by simp only; omega)
    have hin2 : s.inBlock itemSize ⟨d_last.block, d_last.idx - 1⟩ :=
      inBlock_of_lt s itemSize _ hfit hdb (by simp only; omega)
    simp only [std_move_backward_loop, load_defined s itemSize _ hin1,
      store_defined s itemSize _ _ hin2]
    rw [if_neg (by omega)]
    obtain ⟨s1, h1, hb, hc, hk, hmem⟩ :=
      ih { s with mem := fun i => if i = d_last.idx - 1 then s.mem (last.idx - 1) else s.mem i }
        ⟨last.block, last.idx - 1⟩ ⟨d_last.block, d_last.idx - 1⟩ hfit hlb hdb
        (by simp only; omega) (by simp only; omega) (by simp only; omega)
    refine ⟨s1, h1, hb, hc, hk, fun i => ?_⟩
    rw [hmem i]
    simp only
    split_ifs <;> first | rfl | (congr 1; omega)

end Algorithms


/-! ### Growth and the single operations -/

namespace TrivialVectorBase

/-- What `assert_capacity(c)` does while `c * 3 + 1` and the byte size of the new block fit
32 bits: nothing when the capacity is at least `c`, and otherwise a reallocation to
`(c * 3 + 1) / 2` slots that keeps the count and the elements. -/
theorem assert_capacity_spec (s : TrivialVectorBase α) (c itemSize addr : Nat)
    (hinv : s.mItemCount ≤ s.mCapacity) (hfit : s.mCapacity * itemSize < SIZE_TYPE_MOD)
    (hc : c * 3 + 1 < SIZE_TYPE_MOD)
    (hnew : s.mCapacity < c → (c * 3 + 1) / 2 * itemSize < SIZE_TYPE_MOD) :
    ∃ s1, assert_capacity s c itemSize addr = some s1 ∧ s1.mItemCount = s.mItemCount ∧
      (∀ i, i < s.mItemCount → s1.mem i = s.mem i) ∧ c ≤ s1.mCapacity ∧
      s1.mCapacity * itemSize < SIZE_TYPE_MOD ∧
      (c ≤ s.mCapacity → s1 = s) ∧
      (s.mCapacity < c → s1.mCapacity = (c * 3 + 1) / 2 ∧ s1.mBegin = addr) := by
  unfold assert_capacity assert_capacity_slow
  by_cases hlt : s.mCapacity < c
  · rw [if_pos hlt, Nat.mod_eq_of_lt hc]
    obtain ⟨s1, h1, hcap, hcount, hmem, -, hb⟩ :=
      set_capacity_spec s ((c * 3 + 1) / 2) itemSize addr hfit (hnew hlt) (Or.inl hinv)
    refine ⟨s1, h1, hcount, fun i hi => hmem i hi (by omega), by omega, ?_, fun h => by omega,
      fun _ => ⟨hcap, hb (by omega)⟩⟩
    rw [hcap]
    exact hnew hlt
  · rw [if_neg hlt]
    exact ⟨s, rfl, rfl, fun _ _ => rfl, by omega, hfit, fun _ => rfl, fun h => absurd h hlt⟩

/-- The defect of lines 101-102 reached through `assert_capacity(c)`: the capacity has to grow
to `(c * 3 + 1) / 2`, which fits 32 bits, but the byte size of the new block wraps to less
than the bytes of the items to copy, and the call has undefined behaviour. -/
theorem assert_capacity_wrap (s : TrivialVectorBase α) (c itemSize addr : Nat)
    (hinv : s.mItemCount ≤ s.mCapacity) (hfit : s.mCapacity * itemSize < SIZE_TYPE_MOD)
    (hlt : s.mCapacity < c) (hc : c * 3 + 1 < SIZE_TYPE_MOD)
    (hov : ((c * 3 + 1) / 2 * itemSize) % SIZE_TYPE_MOD < s.mItemCount * itemSize) :
    assert_capacity s c itemSize addr = none := by
  unfold assert_capacity assert_capacity_slow
  rw [if_pos hlt, Nat.mod_eq_of_lt hc]
  exact set_capacity_wrap s _ itemSize addr (by omega) (by omega)
    (Nat.lt_of_le_of_lt (Nat.mul_le_mul_right _ hinv) hfit) hov

end TrivialVectorBase

namespace vector

open TrivialVectorBase

theorem holds_ofList (xs : List α) (cap addr itemSize : Nat) (hpos : 0 < itemSize)
    (h1 : xs.length ≤ cap) (h2 : cap * itemSize < SIZE_TYPE_MOD) :
    Holds (ofList xs cap addr) itemSize xs :=
  ⟨hpos, h2, rfl, h1, fun _ _ => rfl⟩

theorem holds_empty (itemSize : Nat) (hpos : 0 < itemSize) :
    Holds (empty_vector : TrivialVectorBase α) itemSize [] :=
  ⟨hpos, by
      rw [SIZE_TYPE_MOD_eq]
      exact Nat.lt_of_le_of_lt (Nat.le_of_eq (Nat.zero_mul _)) (Nat.zero_lt_succ _),
    rfl, Nat.le_refl _, fun _ hi => absurd hi (Nat.not_lt_zero _)⟩

/-- The capacity of a vector that holds elements is a `uint32_t`. -/
theorem Holds.capacity_lt {s : TrivialVectorBase α} {itemSize : Nat} {xs : List α}
    (h : Holds s itemSize xs) : s.mCapacity < SIZE_TYPE_MOD :=
  Nat.lt_of_le_of_lt (Nat.le_mul_of_pos_right _ h.1) h.2.1

/-- The elements of a vector that holds `xs` are those of `xs`, in order. -/
theorem Holds.elements_eq {s : TrivialVectorBase α} {itemSize : Nat} {xs : List α}
    (h : Holds s itemSize xs) : elements s = xs.map some := by
  obtain ⟨-, -, hc, -, hmem⟩ := h
  apply List.ext_getElem?
  intro i
  unfold elements size index
  rw [hc]
  by_cases hi : i < xs.length
  · rw [List.getElem?_map, List.getElem?_map, List.getElem?_range hi, List.getElem?_eq_getElem hi]
    simp only [Option.map_some']
    rw [hmem i hi, List.getElem?_eq_getElem hi]
  · rw [List.getElem?_eq_none (by simpa using hi), List.getElem?_eq_none (by simpa using hi)]

/-- On a vector holding `xs`, with `3 * (|xs| + 1) + 1` below `2 ^ 32` and, when the vector is
full, the byte size of the new block below `2 ^ 32`, `push_back(v)` returns and the vector
holds `xs` followed by `v`; the block is kept when there is room and replaced by one of
`(3 * (|xs| + 1) + 1) / 2` slots otherwise. -/
theorem push_back_spec (s : TrivialVectorBase α) (itemSize : Nat) (xs : List α) (addr : Nat)
    (v : α) (h : Holds s itemSize xs) (hN : 3 * (xs.length + 1) + 1 < SIZE_TYPE_MOD)
    (hnew : s.mCapacity ≤ xs.length →
      (3 * (xs.length + 1) + 1) / 2 * itemSize < SIZE_TYPE_MOD) :
    ∃ s1, push_back s itemSize addr v = some s1 ∧ Holds s1 itemSize (xs ++ [v]) ∧
      (xs.length < s.mCapacity → s1.mCapacity = s.mCapacity ∧ s1.mBegin = s.mBegin) ∧
      (s.mCapacity ≤ xs.length →
        s1.mCapacity = (3 * (xs.length + 1) + 1) / 2 ∧ s1.mBegin = addr) := by
  obtain ⟨hpos, hfit, hc, hle, hmem⟩ := h
  have hmod : (size s + 1) % SIZE_TYPE_MOD = xs.length + 1 := by
    unfold size
    rw [hc]
    exact Nat.mod_eq_of_lt (by omega)
  have hcomm : (xs.length + 1) * 3 + 1 = 3 * (xs.length + 1) + 1 := by omega
  obtain ⟨s1, h1, hcount, hmem1, hcap1, hfit1, hsame, hgrow⟩ :=
    assert_capacity_spec s (xs.length + 1) itemSize addr (by omega) hfit (by omega)
      (fun hlt => by rw [hcomm]; exact hnew (by omega))
  have hend : s1.end_ itemSize = ⟨s1.mBegin, s1.mItemCount⟩ :=
    end_eq s1 itemSize hpos
      (Nat.lt_of_le_of_lt (Nat.mul_le_mul_right _ (by omega)) hfit1)
  have hin : s1.inBlock itemSize (s1.end_ itemSize) := by
    rw [hend]
    exact inBlock_of_lt s1 itemSize _ hfit1 rfl (by simp only; omega)
  unfold push_back
  rw [hmod, h1]
  simp only [store_defined s1 itemSize _ _ hin]
  refine ⟨_, rfl, ⟨hpos, hfit1, ?_, ?_, ?_⟩, ?_, ?_⟩
  · simp only [List.length_append, List.length_singleton]
    rw [hcount, hc]
    exact Nat.mod_eq_of_lt (by omega)
  · simp only [List.length_append, List.length_singleton]
    omega
  · intro i hi
    simp only [List.length_append, List.length_singleton] at hi
    rw [hend]
    simp only
    by_cases hi2 : i = s1.mItemCount
    · rw [if_pos hi2, hi2, hcount, hc]
      simp
    · rw [if_neg hi2, hmem1 i (by omega), hmem i (by omega),
        List.getElem?_append_left (by omega)]
  · intro hlt
    rw [hsame (by omega)]
    exact ⟨rfl, rfl⟩
  · intro hge
    have := hgrow (by omega)
    refine ⟨?_, this.2⟩
    rw [this.1, hcomm]

theorem push_back_all_spec (itemSize : Nat) :
    ∀ (xs : List (Nat × α)) (s : TrivialVectorBase α) (ys : List α),
    Holds s itemSize ys → 3 * (ys.length + xs.length) + 1 < SIZE_TYPE_MOD →
    (3 * (ys.length + xs.length) + 1) / 2 * itemSize < SIZE_TYPE_MOD →
    ∃ s1, push_back_all s itemSize xs = some s1 ∧
      Holds s1 itemSize (ys ++ xs.map Prod.snd) := by
  intro xs
  induction xs with
  | nil =>
    intro s ys h _ _
    exact ⟨s, rfl, by simpa using h⟩
  | cons p xs ih =>
    intro s ys h hN hB
    obtain ⟨addr, v⟩ := p
    simp only [List.length_cons] at hN hB
    have hstep : (3 * (ys.length + 1) + 1) / 2 * itemSize ≤
        (3 * (ys.length + (xs.length + 1)) + 1) / 2 * itemSize :=
      Nat.mul_le_mul_right _ (Nat.div_le_div_right (by omega))
    obtain ⟨s1, h1, hh, -⟩ := push_back_spec s itemSize ys addr v h (by omega)
      (fun _ => Nat.lt_of_le_of_lt hstep hB)
    have e : (ys ++ [v]).length + xs.length = ys.length + (xs.length + 1) := by
      simp only [List.length_append, List.length_singleton]
      omega
    obtain ⟨s2, h2, hh2⟩ := ih s1 (ys ++ [v]) hh (by rw [e]; exact hN) (by rw [e]; exact hB)
    refine ⟨s2, ?_, ?_⟩
    · simp only [push_back_all, h1]
      exact h2
    · simpa using hh2

end vector


namespace vector

open TrivialVectorBase

/-- With room for one more element, `insert(position, v)` at index `i <= size()` returns and
the vector holds `xs[0..i)`, then `v`, then `xs[i..)`, in the same block. -/
theorem insert_no_growth (s : TrivialVectorBase α) (itemSize : Nat) (xs : List α)
    (addr i : Nat) (v : α) (h : Holds s itemSize xs) (hroom : xs.length < s.mCapacity)
    (hi : i ≤ xs.length) :
    ∃ s1, insert s itemSize addr ((data s).add i) v = some s1 ∧
      Holds s1 itemSize (xs.take i ++ v :: xs.drop i) ∧ size s1 = size s + 1 ∧
      capacity s1 = capacity s ∧ data s1 = data s := by
  have hM := h.capacity_lt
  obtain ⟨hpos, hfit, hc, hle, hmem⟩ := h
  have hmod : (size s + 1) % SIZE_TYPE_MOD = xs.length + 1 := by
    unfold size
    rw [hc]
    exact Nat.mod_eq_of_lt (by omega)
  have hassert : assert_capacity s (xs.length + 1) itemSize addr = some s := by
    unfold assert_capacity
    rw [if_neg (by clear hmod; omega)]
  have hend : s.end_ itemSize = ⟨s.mBegin, s.mItemCount⟩ :=
    end_eq s itemSize hpos (Nat.lt_of_le_of_lt (Nat.mul_le_mul_right _ (by omega)) hfit)
  obtain ⟨s2, h2, hb, hcount, hcap, hmem2⟩ :=
    std_move_backward_loop_spec itemSize (s.mItemCount - i) s ⟨s.mBegin, s.mItemCount⟩
      ⟨s.mBegin, s.mItemCount + 1⟩ hfit rfl rfl rfl (by simp only; clear hmod; omega)
      (by simp only; clear hmod; omega)
  have hmove : std_move_backward s itemSize ((data s).add i) (s.end_ itemSize)
      ((s.end_ itemSize).add 1) = some s2 := by
    unfold std_move_backward
    rw [hend]
    simp only [data, begin, Ptr.add, Nat.zero_add]
    rw [if_pos ⟨trivial, by clear hmod; omega⟩]
    exact h2
  have hin : s2.inBlock itemSize ((data s).add i) :=
    inBlock_of_lt s2 itemSize _ (by rw [hcap]; exact hfit)
      (by simp only [data, begin, Ptr.add]; exact hb.symm)
      (by simp only [data, begin, Ptr.add]; clear hmod; omega)
  unfold insert
  rw [hmod, hassert]
  clear hmod
  simp only
  rw [hmove]
  simp only [store_defined s2 itemSize _ _ hin]
  have hinc : (s2.mItemCount + 1) % SIZE_TYPE_MOD = xs.length + 1 := by
    rw [hcount, hc]
    exact Nat.mod_eq_of_lt (by omega)
  rw [hinc]
  clear hinc
  have hlen : (xs.take i ++ v :: xs.drop i).length = xs.length + 1 := by
    rw [List.length_append, List.length_take, List.length_cons, List.length_drop]
    omega
  refine ⟨_, rfl, ⟨hpos, ?_, ?_, ?_, ?_⟩, ?_, hcap, ?_⟩
  · simp only
    rw [hcap]
    exact hfit
  · rw [hlen]
  · rw [hlen]
    show xs.length + 1 ≤ s2.mCapacity
    omega
  · intro j hj
    rw [hlen] at hj
    simp only [data, begin, Ptr.add, Nat.zero_add]
    by_cases hji : j = i
    · rw [if_pos hji, hji, List.getElem?_append_right (by rw [List.length_take]; omega),
        List.length_take, Nat.min_eq_left hi, Nat.sub_self, List.getElem?_cons_zero]
    · rw [if_neg hji, hmem2 j]
      simp only
      by_cases hlt : j < i
      · rw [if_neg (by omega), hmem j (by omega), List.getElem?_append_left
          (by rw [List.length_take]; omega), List.getElem?_take_of_lt hlt]
      · rw [if_pos ⟨by omega, by omega⟩, hmem _ (by omega), List.getElem?_append_right
          (by rw [List.length_take]; omega), List.length_take, Nat.min_eq_left hi]
        obtain ⟨k, hk⟩ : ∃ k, j - i = k + 1 := ⟨j - i - 1, by omega⟩
        rw [hk, List.getElem?_cons_succ, List.getElem?_drop]
        congr 1
        omega
  · simp only [size]
    rw [hc]
  · show (⟨s2.mBegin, 0⟩ : Ptr) = ⟨s.mBegin, 0⟩
    rw [hb]

/-- C8. On a full vector (`size() == capacity()`) `insert(position, v)` reallocates first; the
position, a pointer into the old block, is then used against the new block, and the call has
undefined behaviour. -/
theorem insert_growth_undefined (s : TrivialVectorBase α) (itemSize : Nat) (xs : List α)
    (addr : Nat) (position : Ptr) (v : α) (h : Holds s itemSize xs)
    (hfull : xs.length = s.mCapacity)
    (hN : 3 * (xs.length + 1) + 1 < SIZE_TYPE_MOD) (hpos : position.block = s.mBegin)
    (haddr : addr ≠ s.mBegin) :
    insert s itemSize addr position v = none := by
  obtain ⟨-, -, hc, -, -⟩ := h
  have hmod : (size s + 1) % SIZE_TYPE_MOD = xs.length + 1 := by
    unfold size
    rw [hc]
    exact Nat.mod_eq_of_lt (by omega)
  unfold insert
  rw [hmod]
  clear hmod
  cases ha : assert_capacity s (xs.length + 1) itemSize addr with
  | none => rfl
  | some s1 =>
    simp only
    have hb : s1.mBegin = addr := by
      unfold assert_capacity assert_capacity_slow at ha
      rw [if_pos (by omega), Nat.mod_eq_of_lt (by omega)] at ha
      exact (set_capacity_fields ha).2.2.2 (by omega)
    have hmove : std_move_backward s1 itemSize position (s1.end_ itemSize)
        ((s1.end_ itemSize).add 1) = none := by
      unfold std_move_backward
      rw [if_neg]
      intro hcon
      apply haddr
      rw [← hb, ← hpos]
      exact hcon.1.symm
    rw [hmove]

/-- C8, the failing input: `insert(begin() + 1, 9)` on the full `vector<int>` `[1, 2]`; with
room for a third element the same call gives `[1, 9, 2]`. -/
theorem insert_growth_undefined_witness :
    Holds (ofList [1, 2] 2 7) 4 [1, 2] ∧ [1, 2].length = (ofList [1, 2] 2 7).mCapacity ∧
      3 * ([1, 2].length + 1) + 1 < SIZE_TYPE_MOD ∧
      ((data (ofList [1, 2] 2 7)).add 1).block = (ofList [1, 2] 2 7).mBegin ∧ 8 ≠ 7 ∧
      insert (ofList [1, 2] 2 7) 4 8 ((data (ofList [1, 2] 2 7)).add 1) 9 = none ∧
      (insert (ofList [1, 2] 3 7) 4 8 ((data (ofList [1, 2] 3 7)).add 1) 9).map
          (fun s => (size s, capacity s, elements s)) =
        some (3, 3, [some 1, some 9, some 2]) :=
  ⟨holds_ofList _ _ _ _ (by decide) (by decide) (by decide), by decide, by decide, by decide,
    by decide,
    insert_growth_undefined (ofList [1, 2] 2 7) 4 [1, 2] 8 ((data (ofList [1, 2] 2 7)).add 1) 9
      (holds_ofList _ _ _ _ (by decide) (by decide) (by decide)) (by decide) (by decide)
      (by decide) (by decide),
    by decide⟩

end vector


/-! ### The invariant `size() <= capacity()` along sequences of calls

Between calls a vector built by the operations below has `size() <= capacity()` and a block
with room for `capacity()` items. -/

namespace TrivialVectorBase

/-- A new capacity `n` of at most twice the `c` items that fit the wrapped byte size of its
block is not wrapped at all. -/
theorem fits_of_wrapped (c n itemSize : Nat) (hpos : 0 < itemSize) (hn : n ≤ 2 * c)
    (h : c * itemSize ≤ (n * itemSize) % SIZE_TYPE_MOD) :
    c ≤ n ∧ n * itemSize < SIZE_TYPE_MOD := by
  have h1 : c * itemSize ≤ n * itemSize := Nat.le_trans h (Nat.mod_le _ _)
  have h2 : n * itemSize ≤ 2 * (c * itemSize) := by
    rw [← Nat.mul_assoc]
    exact Nat.mul_le_mul_right _ hn
  refine ⟨Nat.le_of_mul_le_mul_right h1 hpos, ?_⟩
  rw [SIZE_TYPE_MOD_eq] at h ⊢
  generalize c * itemSize = x at h h1 h2
  generalize n * itemSize = y at h h1 h2 ⊢
  omega

/-- The members after a call of `assert_capacity` that returns. -/
theorem assert_capacity_fields {s s1 : TrivialVectorBase α} {c itemSize addr : Nat}
    (h : assert_capacity s c itemSize addr = some s1) :
    s1.mItemCount = s.mItemCount ∧
      (s1 = s ∨ s1.mCapacity = (c * 3 + 1) % SIZE_TYPE_MOD / 2) := by
  unfold assert_capacity assert_capacity_slow at h
  by_cases hlt : s.mCapacity < c
  · rw [if_pos hlt] at h
    exact ⟨(set_capacity_fields h).1, Or.inr (set_capacity_fields h).2.1⟩
  · rw [if_neg hlt] at h
    have h2 := Option.some.inj h
    subst h2
    exact ⟨rfl, Or.inl rfl⟩

/-- After the `assert_capacity(size() + 1)` of `push_back` and `insert`, a write to the slot
`end()` that stays inside the block shows that there is room for one more item and that the
byte size of the block did not wrap. -/
theorem room_after_assert_capacity (s s1 : TrivialVectorBase α) (itemSize addr : Nat) (p : Ptr)
    (hpos : 0 < itemSize) (hinv : s.mItemCount ≤ s.mCapacity)
    (hfit : s.mCapacity * itemSize < SIZE_TYPE_MOD)
    (ha : assert_capacity s ((s.mItemCount + 1) % SIZE_TYPE_MOD) itemSize addr = some s1)
    (hp : p.idx = (s1.end_ itemSize).idx) (hin : s1.inBlock itemSize p) :
    s1.mItemCount + 1 ≤ s1.mCapacity ∧ s1.mCapacity * itemSize < SIZE_TYPE_MOD := by
  obtain ⟨hcount, hcap⟩ := assert_capacity_fields ha
  clear ha
  have hcnt : s1.mItemCount * itemSize < SIZE_TYPE_MOD := by
    rw [hcount]
    exact Nat.lt_of_le_of_lt (Nat.mul_le_mul_right _ hinv) hfit
  rw [end_eq s1 itemSize hpos hcnt] at hp
  simp only at hp
  have hin2 := hin.2
  rw [hp] at hin2
  unfold block_size at hin2
  rcases hcap with hcap | hcap
  · subst hcap
    exact ⟨lt_of_inBlock hpos (p := ⟨s1.mBegin, s1.mItemCount⟩)
      ⟨rfl, by unfold block_size; exact hin2⟩, hfit⟩
  · have hn : s1.mCapacity ≤ 2 * (s1.mItemCount + 1) := by
      rw [hcap, hcount]
      have a1 : (s.mItemCount + 1) % SIZE_TYPE_MOD ≤ s.mItemCount + 1 := Nat.mod_le _ _
      have a2 : ((s.mItemCount + 1) % SIZE_TYPE_MOD * 3 + 1) % SIZE_TYPE_MOD ≤
          (s.mItemCount + 1) % SIZE_TYPE_MOD * 3 + 1 := Nat.mod_le _ _
      clear hin hin2 hcnt hfit hcap
      generalize ((s.mItemCount + 1) % SIZE_TYPE_MOD * 3 + 1) % SIZE_TYPE_MOD = x at a2 ⊢
      generalize (s.mItemCount + 1) % SIZE_TYPE_MOD = y at a1 a2
      omega
    exact fits_of_wrapped (s1.mItemCount + 1) s1.mCapacity itemSize hpos hn hin2

end TrivialVectorBase

namespace vector

open TrivialVectorBase

/-- A call of `push_back` that returns keeps `size() <= capacity()` and the room of the
block. -/
theorem push_back_inv (s s1 : TrivialVectorBase α) (itemSize addr : Nat) (v : α)
    (hpos : 0 < itemSize) (hinv : s.mItemCount ≤ s.mCapacity)
    (hfit : s.mCapacity * itemSize < SIZE_TYPE_MOD)
    (h : push_back s itemSize addr v = some s1) :
    s1.mItemCount ≤ s1.mCapacity ∧ s1.mCapacity * itemSize < SIZE_TYPE_MOD := by
  unfold push_back size at h
  cases ha : assert_capacity s ((s.mItemCount + 1) % SIZE_TYPE_MOD) itemSize addr with
  | none => rw [ha] at h; cases h
  | some t1 =>
    rw [ha] at h
    simp only at h
    cases hs : store t1 itemSize (t1.end_ itemSize) (some v) with
    | none => rw [hs] at h; cases h
    | some t2 =>
      rw [hs] at h
      obtain ⟨hin, -, hcount, hcap, -⟩ := store_spec hs
      obtain ⟨hroom, hfit1⟩ :=
        room_after_assert_capacity s t1 itemSize addr _ hpos hinv hfit ha rfl hin
      have hlt : t2.mItemCount + 1 ≤ t2.mCapacity := by
        rw [hcount, hcap]
        exact hroom
      have hfit2 : t2.mCapacity * itemSize < SIZE_TYPE_MOD := by
        rw [hcap]
        exact hfit1
      have h2 := Option.some.inj h
      subst h2
      exact ⟨Nat.le_trans (Nat.mod_le _ _) hlt, hfit2⟩

/-- A call of `insert` that returns keeps `size() <= capacity()` and the room of the block. -/
theorem insert_inv (s s1 : TrivialVectorBase α) (itemSize addr : Nat) (position : Ptr) (v : α)
    (hpos : 0 < itemSize) (hinv : s.mItemCount ≤ s.mCapacity)
    (hfit : s.mCapacity * itemSize < SIZE_TYPE_MOD)
    (h : insert s itemSize addr position v = some s1) :
    s1.mItemCount ≤ s1.mCapacity ∧ s1.mCapacity * itemSize < SIZE_TYPE_MOD := by
  unfold insert size at h
  cases ha : assert_capacity s ((s.mItemCount + 1) % SIZE_TYPE_MOD) itemSize addr with
  | none => rw [ha] at h; cases h
  | some t1 =>
    rw [ha] at h
    simp only at h
    cases hm : std_move_backward t1 itemSize position (t1.end_ itemSize)
        ((t1.end_ itemSize).add 1) with
    | none => rw [hm] at h; cases h
    | some t2 =>
      rw [hm] at h
      simp only at h
      cases hs : store t2 itemSize position (some v) with
      | none => rw [hs] at h; cases h
      | some t3 =>
        rw [hs] at h
        obtain ⟨hin, -, hcount3, hcap3, -⟩ := store_spec hs
        unfold std_move_backward at hm
        by_cases hr : position.block = (t1.end_ itemSize).block ∧
            position.idx ≤ (t1.end_ itemSize).idx
        · rw [if_pos hr] at hm
          obtain ⟨hb2, hcount2, hcap2⟩ := std_move_backward_loop_fields _ _ _ _ _ _ hm
          have hroom : t1.mItemCount + 1 ≤ t1.mCapacity ∧
              t1.mCapacity * itemSize < SIZE_TYPE_MOD := by
            by_cases hz : (t1.end_ itemSize).idx - position.idx = 0
            · have hin1 : t1.inBlock itemSize position :=
                ⟨hin.1.trans hb2, by
                  have := hin.2
                  unfold block_size at this ⊢
                  rw [hcap2] at this
                  exact this⟩
              exact room_after_assert_capacity s t1 itemSize addr position hpos hinv hfit ha
                (Nat.le_antisymm hr.2 (Nat.le_of_sub_eq_zero hz)) hin1
            · obtain ⟨k, hk⟩ : ∃ k, (t1.end_ itemSize).idx - position.idx = k + 1 :=
                ⟨(t1.end_ itemSize).idx - position.idx - 1, by omega⟩
              rw [hk] at hm
              have h1 := (std_move_backward_loop_inBlock _ _ _ _ _ _ hm).2
              exact room_after_assert_capacity s t1 itemSize addr _ hpos hinv hfit ha
                (by simp only [Ptr.add, Nat.add_sub_cancel]) h1
          have hlt : t3.mItemCount + 1 ≤ t3.mCapacity := by
            rw [hcount3, hcap3, hcount2, hcap2]
            exact hroom.1
          have hfit3 : t3.mCapacity * itemSize < SIZE_TYPE_MOD := by
            rw [hcap3, hcap2]
            exact hroom.2
          have h2 := Option.some.inj h
          subst h2
          exact ⟨Nat.le_trans (Nat.mod_le _ _) hlt, hfit3⟩
        · rw [if_neg hr] at hm
          cases hm

/-- A call of `erase(position)` that returns keeps `size() <= capacity()` and the room of the
block. -/
theorem erase_inv (s s1 : TrivialVectorBase α) (itemSize : Nat) (position : Ptr)
    (hpos : 0 < itemSize) (hinv : s.mItemCount ≤ s.mCapacity)
    (hfit : s.mCapacity * itemSize < SIZE_TYPE_MOD)
    (h : erase s itemSize position = some s1) :
    s1.mItemCount ≤ s1.mCapacity ∧ s1.mCapacity * itemSize < SIZE_TYPE_MOD := by
  have hend : s.end_ itemSize = ⟨s.mBegin, s.mItemCount⟩ :=
    end_eq s itemSize hpos (Nat.lt_of_le_of_lt (Nat.mul_le_mul_right _ hinv) hfit)
  unfold erase at h
  rw [hend] at h
  cases hm : std_move s itemSize (position.add 1) ⟨s.mBegin, s.mItemCount⟩ position with
  | none => rw [hm] at h; cases h
  | some t1 =>
    rw [hm] at h
    simp only at h
    unfold std_move at hm
    by_cases hr : (position.add 1).block = s.mBegin ∧ (position.add 1).idx ≤ s.mItemCount
    · rw [if_pos hr] at hm
      obtain ⟨-, hcount, hcap⟩ := std_move_loop_fields _ _ _ _ _ _ hm
      have hfin : t1.mItemCount ≤ t1.mCapacity := by omega
      have hfit1 : t1.mCapacity * itemSize < SIZE_TYPE_MOD := by
        rw [hcap]
        exact hfit
      have hdec : (t1.mItemCount + SIZE_TYPE_MOD - 1) % SIZE_TYPE_MOD ≤ t1.mItemCount := by
        have h1 : 1 ≤ t1.mItemCount := by
          have := hr.2
          simp only [Ptr.add] at this
          omega
        have e : t1.mItemCount + SIZE_TYPE_MOD - 1 = (t1.mItemCount - 1) + SIZE_TYPE_MOD := by
          omega
        rw [e, Nat.add_mod_right]
        exact Nat.le_trans (Nat.mod_le _ _) (Nat.sub_le _ _)
      have h2 := Option.some.inj h
      subst h2
      exact ⟨Nat.le_trans hdec hfin, hfit1⟩
    · rw [if_neg hr] at hm
      cases hm

/-- A call of `erase(first, last)` with `first <= last` that returns keeps
`size() <= capacity()` and the room of the block. -/
theorem erase_range_inv (s s1 : TrivialVectorBase α) (itemSize : Nat) (first last : Ptr)
    (hpos : 0 < itemSize) (hinv : s.mItemCount ≤ s.mCapacity)
    (hfit : s.mCapacity * itemSize < SIZE_TYPE_MOD) (hfl : first.idx ≤ last.idx)
    (h : erase_range s itemSize first last = some s1) :
    s1.mItemCount ≤ s1.mCapacity ∧ s1.mCapacity * itemSize < SIZE_TYPE_MOD := by
  have hend : s.end_ itemSize = ⟨s.mBegin, s.mItemCount⟩ :=
    end_eq s itemSize hpos (Nat.lt_of_le_of_lt (Nat.mul_le_mul_right _ hinv) hfit)
  unfold erase_range at h
  rw [hend] at h
  cases hm : std_move s itemSize last ⟨s.mBegin, s.mItemCount⟩ first with
  | none => rw [hm] at h; cases h
  | some t1 =>
    rw [hm] at h
    simp only at h
    unfold std_move at hm
    by_cases hr : last.block = s.mBegin ∧ last.idx ≤ s.mItemCount
    · rw [if_pos hr] at hm
      obtain ⟨-, hcount, hcap⟩ := std_move_loop_fields _ _ _ _ _ _ hm
      by_cases hb : first.block = last.block
      · rw [if_pos hb] at h
        have hle : last.idx ≤ t1.mItemCount := by
          have := hr.2
          omega
        have hfin : t1.mItemCount ≤ t1.mCapacity := by omega
        have hfit1 : t1.mCapacity * itemSize < SIZE_TYPE_MOD := by
          rw [hcap]
          exact hfit
        have hcast : ((t1.mItemCount : Int) - ((last.idx : Int) - (first.idx : Int))) =
            ((t1.mItemCount - (last.idx - first.idx) : Nat) : Int) := by
          omega
        have hdec : ((((t1.mItemCount : Int) - ((last.idx : Int) - (first.idx : Int)))
            % (SIZE_TYPE_MOD : Int)).toNat) ≤ t1.mItemCount := by
          rw [hcast, ← Int.ofNat_emod, Int.toNat_ofNat]
          exact Nat.le_trans (Nat.mod_le _ _) (Nat.sub_le _ _)
        have h2 := Option.some.inj h
        subst h2
        exact ⟨Nat.le_trans hdec hfin, hfit1⟩
      · rw [if_neg hb] at h
        cases h
    · rw [if_neg hr] at hm
      cases hm

/-- An admissible call that returns keeps `size() <= capacity()` and the room of the block. -/
theorem step_inv (s s1 : TrivialVectorBase α) (itemSize : Nat) (op : Op α)
    (hpos : 0 < itemSize) (hinv : s.mItemCount ≤ s.mCapacity)
    (hfit : s.mCapacity * itemSize < SIZE_TYPE_MOD) (hadm : admissible s op = true)
    (h : step s itemSize op = some s1) :
    s1.mItemCount ≤ s1.mCapacity ∧ s1.mCapacity * itemSize < SIZE_TYPE_MOD := by
  cases op with
  | push_back addr v => exact push_back_inv s s1 itemSize addr v hpos hinv hfit h
  | pop_back =>
    simp only [admissible, size, decide_eq_true_eq] at hadm
    simp only [step, pop_back, Option.some.injEq] at h
    subst h
    have e : s.mItemCount + SIZE_TYPE_MOD - 1 = (s.mItemCount - 1) + SIZE_TYPE_MOD := by
      omega
    simp only
    rw [e, Nat.add_mod_right]
    exact ⟨Nat.le_trans (Nat.mod_le _ _) (by omega), hfit⟩
  | insert addr position v => exact insert_inv s s1 itemSize addr position v hpos hinv hfit h
  | erase position => exact erase_inv s s1 itemSize position hpos hinv hfit h
  | erase_range first last =>
    simp only [admissible, decide_eq_true_eq] at hadm
    exact erase_range_inv s s1 itemSize first last hpos hinv hfit hadm h

theorem run_inv (itemSize : Nat) (hpos : 0 < itemSize) :
    ∀ (ops : List (Op α)) (s s1 : TrivialVectorBase α),
    s.mItemCount ≤ s.mCapacity → s.mCapacity * itemSize < SIZE_TYPE_MOD →
    Admissible s itemSize ops = true → run s itemSize ops = some s1 →
    s1.mItemCount ≤ s1.mCapacity ∧ s1.mCapacity * itemSize < SIZE_TYPE_MOD := by
  intro ops
  induction ops with
  | nil =>
    intro s s1 hinv hfit _ h
    simp only [run, Option.some.injEq] at h
    subst h
    exact ⟨hinv, hfit⟩
  | cons op ops ih =>
    intro s s1 hinv hfit hadm h
    simp only [Admissible, Bool.and_eq_true] at hadm
    simp only [run] at h
    cases hs : step s itemSize op with
    | none => rw [hs] at h; cases h
    | some t =>
      rw [hs] at h hadm
      obtain ⟨hinv1, hfit1⟩ := step_inv s t itemSize op hpos hinv hfit hadm.1 hs
      exact ih t s1 hinv1 hfit1 hadm.2 h

theorem admissible_take (itemSize : Nat) :
    ∀ (ops : List (Op α)) (s : TrivialVectorBase α) (k : Nat),
    Admissible s itemSize ops = true → Admissible s itemSize (ops.take k) = true := by
  intro ops
  induction ops with
  | nil =>
    intro s k _
    simp only [List.take_nil, Admissible]
  | cons op ops ih =>
    intro s k hadm
    cases k with
    | zero => simp only [List.take_zero, Admissible]
    | succ k =>
      simp only [Admissible, Bool.and_eq_true] at hadm
      simp only [List.take_succ_cons, Admissible, Bool.and_eq_true]
      refine ⟨hadm.1, ?_⟩
      cases hs : step s itemSize op with
      | none => rfl
      | some t =>
        rw [hs] at hadm
        exact ih t k hadm.2

/-- C3, as stated, fails: whatever the size of the items, `pop_back()` on the empty vector
returns with `size() == 2^32 - 1` and `capacity() == 0`; and `erase(begin() + 1, begin())` on
the empty vector returns with `size() == 1` and `capacity() == 0`. -/
theorem size_le_capacity_counterexample :
    (∀ itemSize : Nat, ¬ ∀ (ops : List (Op Nat)) (s1 : TrivialVectorBase Nat),
      run empty_vector itemSize ops = some s1 → size s1 ≤ capacity s1) ∧
    (run (empty_vector : TrivialVectorBase Nat) 4 [Op.pop_back]).map
        (fun s => (size s, capacity s)) = some (4294967295, 0) ∧
    (run (empty_vector : TrivialVectorBase Nat) 4
        [Op.erase_range ⟨nullptr, 1⟩ ⟨nullptr, 0⟩]).map
        (fun s => (size s, capacity s)) = some (1, 0) := by
  refine ⟨?_, by decide, by decide⟩
  intro itemSize hall
  have h := hall [Op.pop_back] (pop_back empty_vector) rfl
  revert h
  decide

/-- C3, amended. Starting from an empty vector of items of `itemSize >= 1` bytes, after every
call of every sequence of `push_back`, `pop_back`, `insert` and `erase` calls in which
`pop_back` is only called on a non-empty vector and `erase(first, last)` only with
`first <= last`, and in which every call returns (none has undefined behaviour),
`size() <= capacity()` holds. -/
theorem size_le_capacity_of_run (itemSize : Nat) (ops : List (Op α)) (k : Nat)
    (s1 : TrivialVectorBase α) (hpos : 0 < itemSize)
    (hadm : Admissible empty_vector itemSize ops = true)
    (hrun : run empty_vector itemSize (ops.take k) = some s1) : size s1 ≤ capacity s1 :=
  (run_inv itemSize hpos (ops.take k) empty_vector s1 (Nat.le_refl _)
    (holds_empty (α := α) itemSize hpos).2.1
    (admissible_take itemSize ops empty_vector k hadm) hrun).1

/-- C3, witness: on a `vector<int>`, `push_back(10)`, `insert(begin(), 5)`, `pop_back()`,
`erase(begin())`, `erase(begin(), begin())`; the states after the third and after the last
call. -/
theorem size_le_capacity_of_run_witness :
    0 < 4 ∧
    Admissible empty_vector 4
        [Op.push_back 1 10, Op.insert 2 ⟨1, 0⟩ 5, Op.pop_back, Op.erase ⟨1, 0⟩,
          Op.erase_range ⟨1, 0⟩ ⟨1, 0⟩] = true ∧
      (run empty_vector 4
          ([Op.push_back 1 10, Op.insert 2 ⟨1, 0⟩ 5, Op.pop_back, Op.erase ⟨1, 0⟩,
            Op.erase_range ⟨1, 0⟩ ⟨1, 0⟩].take 3)).map
          (fun s => (size s, capacity s, elements s)) = some (1, 2, [some 5]) ∧
      (run empty_vector 4
          ([Op.push_back 1 10, Op.insert 2 ⟨1, 0⟩ 5, Op.pop_back, Op.erase ⟨1, 0⟩,
            Op.erase_range ⟨1, 0⟩ ⟨1, 0⟩].take 5)).map
          (fun s => (size s, capacity s, elements s)) = some (0, 2, []) ∧
      ∃ s1 : TrivialVectorBase Nat,
        run empty_vector 4
          ([Op.push_back 1 10, Op.insert 2 ⟨1, 0⟩ 5, Op.pop_back, Op.erase ⟨1, 0⟩,
            Op.erase_range ⟨1, 0⟩ ⟨1, 0⟩].take 3) = some s1 ∧ size s1 ≤ capacity s1 :=
  ⟨by decide, by decide, by decide, by decide,
    (Option.isSome_iff_exists.mp (by decide)).elim fun s1 h =>
      ⟨s1, h, size_le_capacity_of_run 4
        [Op.push_back 1 10, Op.insert 2 ⟨1, 0⟩ 5, Op.pop_back, Op.erase ⟨1, 0⟩,
          Op.erase_range ⟨1, 0⟩ ⟨1, 0⟩] 3 s1 (by decide) (by decide) h⟩⟩

end vector


/-! ### Exact resizing, growth and the count-only operations -/

namespace vector

open TrivialVectorBase

theorem size_set_count (s : TrivialVectorBase α) (k : Nat) :
    size { s with mItemCount := k } = k := rfl

theorem capacity_set_count (s : TrivialVectorBase α) (k : Nat) :
    capacity { s with mItemCount := k } = capacity s := rfl

theorem data_set_count (s : TrivialVectorBase α) (k : Nat) :
    data { s with mItemCount := k } = data s := rfl

theorem index_set_count (s : TrivialVectorBase α) (k i : Nat) :
    index { s with mItemCount := k } i = index s i := rfl

/-- C16. `pop_back` and `clear` change the element count only: on a non-empty vector
`pop_back()` decreases `size()` by exactly one and leaves `capacity()`, the data pointer and
the contents of the block unchanged; on every vector `clear()` sets `size()` to 0 and leaves
`capacity()`, the data pointer and the contents of the block unchanged. -/
theorem pop_back_clear_frame (s : TrivialVectorBase α) :
    (0 < size s → size s < SIZE_TYPE_MOD →
      size (pop_back s) + 1 = size s ∧ capacity (pop_back s) = capacity s ∧
        data (pop_back s) = data s ∧ ∀ i, index (pop_back s) i = index s i) ∧
      (size (clear s) = 0 ∧ capacity (clear s) = capacity s ∧ data (clear s) = data s ∧
        ∀ i, index (clear s) i = index s i) := by
  refine ⟨fun h0 hM => ?_, size_set_count s 0, capacity_set_count s 0, data_set_count s 0,
    fun i => index_set_count s 0 i⟩
  unfold size at h0 hM
  have hdec : (s.mItemCount + SIZE_TYPE_MOD - 1) % SIZE_TYPE_MOD = s.mItemCount - 1 := by
    have e : s.mItemCount + SIZE_TYPE_MOD - 1 = (s.mItemCount - 1) + SIZE_TYPE_MOD := by omega
    rw [e, Nat.add_mod_right]
    exact Nat.mod_eq_of_lt (by omega)
  have hsize : size (pop_back s) = s.mItemCount - 1 := (size_set_count s _).trans hdec
  clear hdec
  have hfin : s.mItemCount - 1 + 1 = size s := by
    unfold size
    omega
  exact ⟨(congrArg (fun k => k + 1) hsize).trans hfin, capacity_set_count s _,
    data_set_count s _, fun i => index_set_count s _ i⟩

/-- C16, witness: `pop_back()` on the vector `[10, 20, 30]` of capacity 5, and `clear()` on
that vector and on the empty vector. -/
theorem pop_back_clear_frame_witness :
    0 < size (ofList [10, 20, 30] 5 7) ∧ size (ofList [10, 20, 30] 5 7) < SIZE_TYPE_MOD ∧
      (size (pop_back (ofList [10, 20, 30] 5 7)) + 1 = size (ofList [10, 20, 30] 5 7) ∧
        capacity (pop_back (ofList [10, 20, 30] 5 7)) = capacity (ofList [10, 20, 30] 5 7) ∧
        data (pop_back (ofList [10, 20, 30] 5 7)) = data (ofList [10, 20, 30] 5 7) ∧
        ∀ i, index (pop_back (ofList [10, 20, 30] 5 7)) i =
          index (ofList [10, 20, 30] 5 7) i) ∧
      (size (clear (empty_vector : TrivialVectorBase Nat)) = 0 ∧
        capacity (clear (empty_vector : TrivialVectorBase Nat)) =
          capacity (empty_vector : TrivialVectorBase Nat) ∧
        data (clear (empty_vector : TrivialVectorBase Nat)) =
          data (empty_vector : TrivialVectorBase Nat) ∧
        ∀ i, index (clear (empty_vector : TrivialVectorBase Nat)) i =
          index (empty_vector : TrivialVectorBase Nat) i) ∧
      (size (pop_back (ofList [10, 20, 30] 5 7)), capacity (pop_back (ofList [10, 20, 30] 5 7)),
          elements (pop_back (ofList [10, 20, 30] 5 7))) = (2, 5, [some 10, some 20]) ∧
      (size (clear (ofList [10, 20, 30] 5 7)), capacity (clear (ofList [10, 20, 30] 5 7)),
          elements (clear (ofList [10, 20, 30] 5 7))) = (0, 5, []) :=
  ⟨by decide, by decide,
    (pop_back_clear_frame (ofList [10, 20, 30] 5 7)).1 (by decide) (by decide),
    (pop_back_clear_frame (empty_vector : TrivialVectorBase Nat)).2,
    by decide, by decide⟩

/-- C18. `assert_capacity(c)` is a no-op when `capacity >= c`.  When `capacity < c`,
`c * 3 + 1` fits 32 bits and the count is within the capacity of a block with room for it: if
the byte size `(c * 3 + 1) / 2 * itemSize` of the new block fits 32 bits, the call returns with
the capacity exactly `(c * 3 + 1) / 2`, computed from `c`, in a new block, and the count and
the first `count` elements unchanged; but if that byte size wraps to less than the
`count * itemSize` bytes to copy, `memcpy` overruns the new block and the call has undefined
behaviour. -/
theorem assert_capacity_byte_size_wrap (s : TrivialVectorBase α) (c itemSize addr : Nat) :
    (c ≤ s.mCapacity → assert_capacity s c itemSize addr = some s) ∧
      (s.mCapacity < c → c * 3 + 1 < SIZE_TYPE_MOD → s.mItemCount ≤ s.mCapacity →
        s.mCapacity * itemSize < SIZE_TYPE_MOD →
        ((c * 3 + 1) / 2 * itemSize < SIZE_TYPE_MOD →
          ∃ s1, assert_capacity s c itemSize addr = some s1 ∧
            s1.mCapacity = (c * 3 + 1) / 2 ∧ c ≤ s1.mCapacity ∧ s1.mBegin = addr ∧
            s1.mItemCount = s.mItemCount ∧ ∀ i, i < s.mItemCount → s1.mem i = s.mem i) ∧
        (((c * 3 + 1) / 2 * itemSize) % SIZE_TYPE_MOD < s.mItemCount * itemSize →
          assert_capacity s c itemSize addr = none)) := by
  constructor
  · intro hle
    unfold assert_capacity
    rw [if_neg (by omega)]
  · intro hlt hc hinv hfit
    constructor
    · intro hnew
      obtain ⟨s1, h1, hcount, hmem, hge, -, -, hgrow⟩ :=
        assert_capacity_spec s c itemSize addr hinv hfit hc (fun _ => hnew)
      exact ⟨s1, h1, (hgrow hlt).1, hge, (hgrow hlt).2, hcount, hmem⟩
    · intro hov
      exact assert_capacity_wrap s c itemSize addr hinv hfit hlt hc hov

/-- C18, the failing input: on the `vector<int>` `[10, 20, 30]` of capacity 3,
`assert_capacity(715827883)` computes the capacity 1073741825, requests
`1073741825 * 4 mod 2^32 = 4` bytes and copies 12; `assert_capacity(2)` does nothing and
`assert_capacity(4)` reallocates to `(4 * 3 + 1) / 2 == 6` slots. -/
theorem assert_capacity_byte_size_wrap_witness :
    (ofList [10, 20, 30] 3 7).mCapacity < 715827883 ∧ 715827883 * 3 + 1 < SIZE_TYPE_MOD ∧
      (ofList [10, 20, 30] 3 7).mItemCount ≤ (ofList [10, 20, 30] 3 7).mCapacity ∧
      (ofList [10, 20, 30] 3 7).mCapacity * 4 < SIZE_TYPE_MOD ∧
      ((715827883 * 3 + 1) / 2 * 4) % SIZE_TYPE_MOD < (ofList [10, 20, 30] 3 7).mItemCount * 4 ∧
      assert_capacity (ofList [10, 20, 30] 3 7) 715827883 4 8 = none ∧
      assert_capacity (ofList [10, 20, 30] 3 7) 2 4 8 = some (ofList [10, 20, 30] 3 7) ∧
      (assert_capacity (ofList [10, 20, 30] 3 7) 4 4 8).map
          (fun s => (s.mBegin, size s, capacity s, elements s)) =
        some (8, 3, 6, [some 10, some 20, some 30]) :=
  ⟨by decide, by decide, by decide, by decide, by decide,
    ((assert_capacity_byte_size_wrap (ofList [10, 20, 30] 3 7) 715827883 4 8).2 (by decide)
      (by decide) (by decide) (by decide)).2 (by decide),
    rfl, by decide⟩

end vector


namespace vector

open TrivialVectorBase

/-- One `push_back` with room left in a block that has room for its capacity: no
reallocation, the value lands in slot `size()`. -/
theorem push_back_room (s : TrivialVectorBase α) (itemSize addr : Nat) (v : α)
    (hpos : 0 < itemSize) (hlt : size s < capacity s)
    (hfit : capacity s * itemSize < SIZE_TYPE_MOD) :
    ∃ s1, push_back s itemSize addr v = some s1 ∧ capacity s1 = capacity s ∧
      size s1 = size s + 1 ∧ data s1 = data s ∧ index s1 (size s) = some v ∧
      ∀ i, i ≠ size s → index s1 i = index s i := by
  unfold size capacity at hlt
  unfold capacity at hfit
  have hM : s.mCapacity < SIZE_TYPE_MOD :=
    Nat.lt_of_le_of_lt (Nat.le_mul_of_pos_right _ hpos) hfit
  have hmod : (size s + 1) % SIZE_TYPE_MOD = s.mItemCount + 1 := by
    unfold size
    exact Nat.mod_eq_of_lt (by omega)
  have hassert : assert_capacity s (s.mItemCount + 1) itemSize addr = some s := by
    unfold assert_capacity
    rw [if_neg (by clear hmod; omega)]
  have hend : s.end_ itemSize = ⟨s.mBegin, s.mItemCount⟩ :=
    end_eq s itemSize hpos
      (Nat.lt_of_le_of_lt (Nat.mul_le_mul_right _ (Nat.le_of_lt hlt)) hfit)
  have hin : s.inBlock itemSize (s.end_ itemSize) := by
    rw [hend]
    exact inBlock_of_lt s itemSize _ hfit rfl hlt
  have hinc : (s.mItemCount + 1) % SIZE_TYPE_MOD = s.mItemCount + 1 :=
    Nat.mod_eq_of_lt (by clear hmod; omega)
  unfold push_back
  rw [hmod, hassert]
  simp only [store_defined s itemSize _ _ hin]
  rw [hinc, hend]
  clear hmod hinc
  refine ⟨_, rfl, rfl, rfl, rfl, ?_, ?_⟩
  · simp only [index, size, if_true]
  · intro i hi
    simp only [index, size] at hi ⊢
    rw [if_neg hi]

theorem push_back_all_room (itemSize : Nat) (hpos : 0 < itemSize) :
    ∀ (xs : List (Nat × α)) (s : TrivialVectorBase α),
    size s + xs.length ≤ capacity s → capacity s * itemSize < SIZE_TYPE_MOD →
    ∃ s1, push_back_all s itemSize xs = some s1 ∧ size s1 = size s + xs.length ∧
      capacity s1 = capacity s := by
  intro xs
  induction xs with
  | nil =>
    intro s _ _
    exact ⟨s, rfl, rfl, rfl⟩
  | cons p xs ih =>
    intro s hle hfit
    obtain ⟨addr, v⟩ := p
    simp only [List.length_cons] at hle
    obtain ⟨s1, h1, hcap, hsize, -⟩ := push_back_room s itemSize addr v hpos (by omega) hfit
    obtain ⟨s2, h2, hsize2, hcap2⟩ := ih s1 (by omega) (by rw [hcap]; exact hfit)
    refine ⟨s2, ?_, ?_, ?_⟩
    · simp only [push_back_all, h1]
      exact h2
    · rw [hsize2, hsize, List.length_cons]
      omega
    · rw [hcap2, hcap]

/-- C12. On a vector state with `size() < capacity()` whose block has room for `capacity()`
items, `push_back` returns with `capacity()` unchanged and `size()` increased by one, and while
`n * sizeof(T)` fits 32 bits, `reserve(n)` on an empty vector followed by `m <= n` calls of
`push_back` gives `size() == m` and `capacity() == n`.  But for `n >= 1` with `n * sizeof(T)`
wrapping to less than one item, `reserve(n)` on an empty vector returns with `size() == 0` and
`capacity() == n` over a block that has no room for an item, and the `push_back` that follows
writes outside the block: it has undefined behaviour. -/
theorem push_back_after_reserve_wrap (itemSize n addr0 addr : Nat) (v : α)
    (hpos : 0 < itemSize) :
    (∀ s : TrivialVectorBase α, size s < capacity s →
      capacity s * itemSize < SIZE_TYPE_MOD →
      ∃ s1, push_back s itemSize addr v = some s1 ∧ capacity s1 = capacity s ∧
        size s1 = size s + 1 ∧ data s1 = data s) ∧
    (n * itemSize < SIZE_TYPE_MOD → ∀ xs : List (Nat × α), xs.length ≤ n →
      ∃ s1 s2, reserve empty_vector itemSize addr0 n = some s1 ∧ capacity s1 = n ∧
        size s1 = 0 ∧ push_back_all s1 itemSize xs = some s2 ∧ size s2 = xs.length ∧
        capacity s2 = n) ∧
    (0 < n → (n * itemSize) % SIZE_TYPE_MOD < itemSize →
      ∃ s1, reserve empty_vector itemSize addr0 n = some s1 ∧ capacity s1 = n ∧
        size s1 = 0 ∧ size s1 < capacity s1 ∧ push_back s1 itemSize addr v = none) := by
  refine ⟨?_, ?_, ?_⟩
  · intro s hlt hfit
    obtain ⟨s1, h1, hcap, hsize, hdata, -⟩ := push_back_room s itemSize addr v hpos hlt hfit
    exact ⟨s1, h1, hcap, hsize, hdata⟩
  · intro hn xs hm
    obtain ⟨s1, h1, hcap, hcount, -⟩ :=
      set_capacity_spec (empty_vector : TrivialVectorBase α) n itemSize addr0
        (holds_empty (α := α) itemSize hpos).2.1 hn (Or.inl (Nat.le_refl _))
    have hsize : size s1 = 0 := hcount
    have hcap1 : capacity s1 = n := hcap
    obtain ⟨s2, h2, hsize2, hcap2⟩ :=
      push_back_all_room itemSize hpos xs s1 (by omega) (by rw [hcap1]; exact hn)
    exact ⟨s1, s2, h1, hcap1, hsize, h2, by omega, by omega⟩
  · intro hn hov
    have hdef : ∃ s1, set_capacity (empty_vector : TrivialVectorBase α) n itemSize addr0 =
        some s1 := by
      unfold set_capacity
      have hne : ¬ n = (empty_vector : TrivialVectorBase α).mCapacity := by
        show ¬ n = 0
        omega
      rw [if_neg hne]
      have hlen : (if (empty_vector : TrivialVectorBase α).mItemCount < n then
          (empty_vector : TrivialVectorBase α).mItemCount else n) = 0 := if_pos hn
      simp only [hlen, Nat.zero_mul, Nat.zero_mod, Nat.zero_le, and_self, if_true]
      exact ⟨_, rfl⟩
    obtain ⟨s1, h1⟩ := hdef
    obtain ⟨hcount, hcap, -, -⟩ := set_capacity_fields h1
    have hcount0 : s1.mItemCount = 0 := hcount
    refine ⟨s1, h1, hcap, hcount0, by unfold size capacity; omega, ?_⟩
    have hc : (0 + 1) % SIZE_TYPE_MOD = 1 := by
      rw [SIZE_TYPE_MOD_eq]
    have hstore : store s1 itemSize (s1.end_ itemSize) (some v) = none := by
      unfold store
      rw [if_neg]
      intro hin
      have h2 := hin.2
      unfold block_size end_ at h2
      rw [hcount0, hcap] at h2
      simp only [Nat.zero_mul, Nat.zero_mod, Nat.zero_div, Nat.zero_add, Nat.one_mul] at h2
      exact Nat.lt_irrefl _ (Nat.lt_of_lt_of_le hov h2)
    unfold push_back assert_capacity size
    rw [hcount0, hc, if_neg (by omega)]
    simp only
    rw [hstore]

/-- C12, the failing input: on an empty `vector<int>`, `reserve(1073741824)` requests
`1073741824 * 4 mod 2^32 = 0` bytes and sets the capacity to 1073741824; the next `push_back`
has `size() < capacity()` and writes to a block of 0 bytes.  The scenario of the
specification, `reserve(10)` followed by five calls of `push_back`, gives size 5 and capacity
10. -/
theorem push_back_after_reserve_wrap_witness :
    0 < 4 ∧ 0 < 1073741824 ∧ (1073741824 * 4) % SIZE_TYPE_MOD < 4 ∧
      (∃ s1, reserve (empty_vector : TrivialVectorBase Nat) 4 1 1073741824 = some s1 ∧
        capacity s1 = 1073741824 ∧ size s1 = 0 ∧ size s1 < capacity s1 ∧
        push_back s1 4 2 10 = none) ∧
      (reserve (empty_vector : TrivialVectorBase Nat) 4 1 10).map
          (fun s => (size s, capacity s)) = some (0, 10) ∧
      ((reserve (empty_vector : TrivialVectorBase Nat) 4 1 10).bind
          (fun s => push_back_all s 4 [(2, 1), (3, 2), (4, 3), (5, 4), (6, 5)])).map
          (fun s => (s.mBegin, size s, capacity s, elements s)) =
        some (1, 5, 10, [some 1, some 2, some 3, some 4, some 5]) :=
  ⟨by decide, by decide, by decide,
    (push_back_after_reserve_wrap 4 1073741824 1 2 10 (by decide)).2.2 (by decide) (by decide),
    by decide, by decide⟩

end vector


section Generate

open TrivialVectorBase

/-- Filling `n` slots of an owned block with room for its capacity with `v`: the call is
defined and exactly the slots `first .. first + n - 1` hold `v` afterwards. -/
theorem std_generate_loop_spec (itemSize : Nat) :
    ∀ (n : Nat) (s : TrivialVectorBase α) (first : Ptr) (v : α),
    s.mCapacity * itemSize < SIZE_TYPE_MOD →
    first.block = s.mBegin → first.idx + n ≤ s.mCapacity →
    ∃ s1, std_generate_loop itemSize n s first v = some s1 ∧ s1.mBegin = s.mBegin ∧
      s1.mItemCount = s.mItemCount ∧ s1.mCapacity = s.mCapacity ∧
      ∀ i, s1.mem i = if first.idx ≤ i ∧ i < first.idx + n then some v else s.mem i := by
  intro n
  induction n with
  | zero =>
    intro s first v _ _ _
    refine ⟨s, rfl, rfl, rfl, rfl, fun i => ?_⟩
    rw [if_neg (by omega)]
  | succ n ih =>
    intro s first v hfit hfb hcap
    have hin : s.inBlock itemSize first := inBlock_of_lt s itemSize first hfit hfb (by omega)
    simp only [std_generate_loop, store_defined s itemSize first _ hin]
    obtain ⟨s1, h1, hb, hc, hk, hmem⟩ :=
      ih { s with mem := fun i => if i = first.idx then some v else s.mem i }
        (first.add 1) v hfit hfb (by simp only [Ptr.add]; omega)
    refine ⟨s1, h1, hb, hc, hk, fun i => ?_⟩
    rw [hmem i]
    simp only [Ptr.add]
    split_ifs <;> first | rfl | (exfalso; omega)

end Generate

namespace vector

open TrivialVectorBase

/-- C14. On a vector holding `xs`, for a count `n` whose growth computation, if it is needed,
does not overflow 32 bits: while the byte size `(n * 3 + 1) / 2 * sizeof(T)` of the block to
grow to fits 32 bits, `resize(n, v)` returns with `size() == n`, `capacity() >= n`, the
elements at the indices below `min(|xs|, n)` those of `xs` and the elements at the indices from
`|xs|` to `n - 1` equal to `v`; but when the call has to grow and that byte size wraps to less
than the `|xs| * sizeof(T)` bytes to copy, `memcpy` overruns the new block and the call has
undefined behaviour. -/
theorem resize_fill_byte_size_wrap (s : TrivialVectorBase α) (itemSize : Nat) (xs : List α)
    (addr n : Nat) (v : α) (h : Holds s itemSize xs)
    (hn : s.mCapacity < n → n * 3 + 1 < SIZE_TYPE_MOD) :
    ((s.mCapacity < n → (n * 3 + 1) / 2 * itemSize < SIZE_TYPE_MOD) →
      ∃ s1, resize_fill s itemSize addr n v = some s1 ∧ size s1 = n ∧ n ≤ capacity s1 ∧
        (∀ i, i < xs.length → i < n → index s1 i = xs[i]?) ∧
        (∀ i, xs.length ≤ i → i < n → index s1 i = some v)) ∧
    (s.mCapacity < n →
      ((n * 3 + 1) / 2 * itemSize) % SIZE_TYPE_MOD < xs.length * itemSize →
      resize_fill s itemSize addr n v = none) := by
  obtain ⟨hpos, hfit, hc, hle, hmem⟩ := h
  constructor
  · intro hnew
    have hgrow : ∃ t, assert_capacity s n itemSize addr = some t ∧ t.mItemCount = xs.length ∧
        n ≤ t.mCapacity ∧ t.mCapacity * itemSize < SIZE_TYPE_MOD ∧
        ∀ i, i < xs.length → t.mem i = xs[i]? := by
      by_cases hcap : s.mCapacity < n
      · obtain ⟨t, h1, hcount, hmem1, hge, hfit1, -, -⟩ :=
          assert_capacity_spec s n itemSize addr (by omega) hfit (hn hcap) hnew
        exact ⟨t, h1, hcount.trans hc, hge, hfit1,
          fun i hi => (hmem1 i (by omega)).trans (hmem i hi)⟩
      · refine ⟨s, ?_, hc, by omega, hfit, hmem⟩
        unfold assert_capacity
        rw [if_neg hcap]
    obtain ⟨t, ht, hcount, hge, hfitt, hmemt⟩ := hgrow
    unfold resize_fill
    rw [ht]
    simp only
    by_cases hgt : n > size t
    · rw [if_pos hgt]
      unfold size at hgt
      obtain ⟨t2, h2, hb2, hc2, hk2, hmem2⟩ :=
        std_generate_loop_spec itemSize (n - t.mItemCount) t ⟨t.mBegin, t.mItemCount⟩ v hfitt
          rfl (by simp only; omega)
      have hgen : std_generate t itemSize (t.begin.add (size t)) (t.begin.add n) v =
          some t2 := by
        unfold std_generate
        simp only [begin, size, Ptr.add, Nat.zero_add]
        rw [if_pos ⟨trivial, by omega⟩]
        exact h2
      rw [hgen]
      simp only
      refine ⟨_, rfl, rfl, ?_, ?_, ?_⟩
      · show n ≤ t2.mCapacity
        omega
      · intro i hi hin
        show t2.mem i = _
        rw [hmem2 i]
        simp only
        rw [if_neg (by omega)]
        exact hmemt i hi
      · intro i hi hin
        show t2.mem i = _
        rw [hmem2 i]
        simp only
        rw [if_pos ⟨by omega, by omega⟩]
    · rw [if_neg hgt]
      unfold size at hgt
      refine ⟨_, rfl, rfl, hge, ?_, ?_⟩
      · intro i hi _
        exact hmemt i hi
      · intro i hi hin
        omega
  · intro hcap hov
    have ha : assert_capacity s n itemSize addr = none :=
      assert_capacity_wrap s n itemSize addr (by omega) hfit hcap (hn hcap)
        (by rw [hc]; exact hov)
    unfold resize_fill
    rw [ha]

/-- C14, the failing input: `resize(715827883, 9)` on the `vector<int>` `[10, 20, 30]` of
capacity 3 computes the capacity 1073741825, requests `1073741825 * 4 mod 2^32 = 4` bytes and
copies 12.  `resize(5, 9)` (a growing call) and `resize(2, 9)` (a shrinking call) on the same
vector do what the claim says. -/
theorem resize_fill_byte_size_wrap_witness :
    Holds (ofList [10, 20, 30] 3 7) 4 [10, 20, 30] ∧
      ((ofList [10, 20, 30] 3 7).mCapacity < 715827883 →
        715827883 * 3 + 1 < SIZE_TYPE_MOD) ∧
      (ofList [10, 20, 30] 3 7).mCapacity < 715827883 ∧
      ((715827883 * 3 + 1) / 2 * 4) % SIZE_TYPE_MOD < [10, 20, 30].length * 4 ∧
      resize_fill (ofList [10, 20, 30] 3 7) 4 8 715827883 9 = none ∧
      (resize_fill (ofList [10, 20, 30] 3 7) 4 8 5 9).map
          (fun s => (s.mBegin, size s, capacity s, elements s)) =
        some (8, 5, 8, [some 10, some 20, some 30, some 9, some 9]) ∧
      (resize_fill (ofList [10, 20, 30] 3 7) 4 8 2 9).map
          (fun s => (s.mBegin, size s, capacity s, elements s)) =
        some (7, 2, 3, [some 10, some 20]) :=
  ⟨holds_ofList _ _ _ _ (by decide) (by decide) (by decide), fun _ => by decide, by decide,
    by decide,
    (resize_fill_byte_size_wrap (ofList [10, 20, 30] 3 7) 4 [10, 20, 30] 8 715827883 9
      (holds_ofList _ _ _ _ (by decide) (by decide) (by decide)) (fun _ => by decide)).2
      (by decide) (by decide),
    by decide, by decide⟩

end vector


/-! ### Repeated `push_back` -/

namespace vector

open TrivialVectorBase

theorem push_back_all_append (itemSize : Nat) :
    ∀ (xs ys : List (Nat × α)) (s : TrivialVectorBase α),
    push_back_all s itemSize (xs ++ ys) =
      (push_back_all s itemSize xs).bind (fun s1 => push_back_all s1 itemSize ys) := by
  intro xs
  induction xs with
  | nil =>
    intro ys s
    rfl
  | cons p xs ih =>
    intro ys s
    obtain ⟨addr, v⟩ := p
    simp only [List.cons_append, push_back_all]
    cases push_back s itemSize addr v with
    | none => rfl
    | some s1 => exact ih ys s1

/-- Calls of `push_back` that fit the capacity keep the block and append their values. -/
theorem push_back_all_room_holds (itemSize : Nat) :
    ∀ (xs : List (Nat × α)) (s : TrivialVectorBase α) (ys : List α),
    Holds s itemSize ys → ys.length + xs.length ≤ s.mCapacity →
    3 * s.mCapacity + 1 < SIZE_TYPE_MOD →
    ∃ s1, push_back_all s itemSize xs = some s1 ∧
      Holds s1 itemSize (ys ++ xs.map Prod.snd) ∧ s1.mCapacity = s.mCapacity := by
  intro xs
  induction xs with
  | nil =>
    intro s ys h _ _
    exact ⟨s, rfl, by simpa using h, rfl⟩
  | cons p xs ih =>
    intro s ys h hle hN
    obtain ⟨addr, v⟩ := p
    simp only [List.length_cons] at hle
    obtain ⟨s1, h1, hh, hsame, -⟩ := push_back_spec s itemSize ys addr v h (by omega)
      (fun hc => by omega)
    have hcap : s1.mCapacity = s.mCapacity := (hsame (by omega)).1
    obtain ⟨s2, h2, hh2, hcap2⟩ := ih s1 (ys ++ [v]) hh
      (by simp only [List.length_append, List.length_singleton]; omega) (by rw [hcap]; exact hN)
    refine ⟨s2, ?_, ?_, hcap2.trans hcap⟩
    · simp only [push_back_all, h1]
      exact h2
    · simpa using hh2

/-- The defect of lines 101-102 reached through `push_back`: on a full vector whose next
capacity fits 32 bits but has a byte size that wraps to less than the bytes of the elements,
the reallocation overruns the new block and the call has undefined behaviour. -/
theorem push_back_full_wrap (s : TrivialVectorBase α) (itemSize : Nat) (ys : List α)
    (addr : Nat) (v : α) (h : Holds s itemSize ys) (hfull : ys.length = s.mCapacity)
    (hN : (ys.length + 1) * 3 + 1 < SIZE_TYPE_MOD)
    (hov : (grown_capacity ys.length * itemSize) % SIZE_TYPE_MOD < ys.length * itemSize) :
    push_back s itemSize addr v = none := by
  obtain ⟨-, hfit, hc, hle, -⟩ := h
  have hmod : (size s + 1) % SIZE_TYPE_MOD = ys.length + 1 := by
    unfold size
    rw [hc]
    exact Nat.mod_eq_of_lt (by omega)
  have ha : assert_capacity s (ys.length + 1) itemSize addr = none :=
    assert_capacity_wrap s (ys.length + 1) itemSize addr (by omega) hfit (by omega) hN
      (by rw [hc]; exact hov)
  unfold push_back
  rw [hmod, ha]

/-- The run of `push_back` calls up to the `k`-th reallocation and on until the vector is full
again: as many calls as the `k`-th capacity of the growth sequence `0, 2, 5, 9, 15, ...`
return and leave a full vector of that capacity, while the byte size of the block fits 32
bits. -/
theorem push_back_all_chain (itemSize : Nat) (hpos : 0 < itemSize) :
    ∀ (k : Nat) (xs : List (Nat × α)), xs.length = grown_capacity^[k] 0 →
    3 * xs.length + 1 < SIZE_TYPE_MOD → xs.length * itemSize < SIZE_TYPE_MOD →
    ∃ s, push_back_all empty_vector itemSize xs = some s ∧
      Holds s itemSize (xs.map Prod.snd) ∧ s.mCapacity = xs.length := by
  intro k
  induction k with
  | zero =>
    intro xs hlen _ _
    have hnil : xs = [] := List.length_eq_zero.mp hlen
    subst hnil
    exact ⟨empty_vector, rfl, holds_empty itemSize hpos, rfl⟩
  | succ k ih =>
    intro xs hlen hN hB
    rw [Function.iterate_succ_apply'] at hlen
    generalize hcdef : grown_capacity^[k] 0 = c at hlen ih
    unfold grown_capacity at hlen
    have hl1 : (xs.take c).length = c := by
      rw [List.length_take]
      omega
    obtain ⟨s0, h0, hh0, hcap0⟩ := ih (xs.take c) hl1 (by rw [hl1]; omega)
      (by rw [hl1]; exact Nat.lt_of_le_of_lt (Nat.mul_le_mul_right _ (by omega)) hB)
    obtain ⟨p, rest, hdrop⟩ : ∃ p rest, xs.drop c = p :: rest := by
      cases hd : xs.drop c with
      | nil =>
        have := congrArg List.length hd
        rw [List.length_drop, List.length_nil] at this
        omega
      | cons p r => exact ⟨p, r, rfl⟩
    have hrest : rest.length + 1 = xs.length - c := by
      have := congrArg List.length hdrop
      rw [List.length_drop, List.length_cons] at this
      omega
    have hsplit : xs = xs.take c ++ p :: rest := by
      rw [← hdrop, List.take_append_drop]
    obtain ⟨addr, v⟩ := p
    have hlm : ((xs.take c).map Prod.snd).length = c := by
      rw [List.length_map, hl1]
    have hgrow : (3 * (((xs.take c).map Prod.snd).length + 1) + 1) / 2 = xs.length := by
      rw [hlm, hlen]
      congr 1
      omega
    obtain ⟨s1, h1, hh1, -, hcap1⟩ := push_back_spec s0 itemSize ((xs.take c).map Prod.snd)
      addr v hh0 (by rw [hlm]; omega) (fun _ => by rw [hgrow]; exact hB)
    have hcap1 : s1.mCapacity = xs.length := by
      rw [(hcap1 (by rw [hlm, hcap0, hl1])).1, hgrow]
    obtain ⟨s2, h2, hh2, hcap2⟩ := push_back_all_room_holds itemSize rest s1
      ((xs.take c).map Prod.snd ++ [v]) hh1
      (by rw [List.length_append, List.length_singleton, hlm, hcap1]; omega)
      (by rw [hcap1]; exact hN)
    have hrun : push_back_all empty_vector itemSize (xs.take c ++ (addr, v) :: rest) =
        some s2 := by
      rw [push_back_all_append, h0]
      simp only [Option.some_bind, push_back_all, h1]
      exact h2
    have hmap : xs.map Prod.snd = ((xs.take c).map Prod.snd ++ [v]) ++ rest.map Prod.snd := by
      conv_lhs => rw [hsplit]
      simp
    refine ⟨s2, ?_, ?_, hcap2.trans hcap1⟩
    · rw [hsplit]
      exact hrun
    · rw [hmap]
      exact hh2

/-- The capacity after 48 reallocations. -/
theorem grown_capacity_iterate_48 : grown_capacity^[48] 0 = 1034394548 := by
  simp only [Function.iterate_succ, Function.iterate_zero, Function.comp, grown_capacity, id]

/-- On a `vector<int>` (items of 4 bytes) the 1034394549-th `push_back` on an empty vector has
undefined behaviour: the vector is full with capacity 1034394548, the new capacity
1551591824 fits 32 bits, but its byte size wraps to 1911400000, less than the 4137578192 bytes
to copy. -/
theorem push_back_all_wrap (xs : List (Nat × α)) (hlen : xs.length = 1034394549) :
    push_back_all empty_vector 4 xs = none := by
  have hl1 : (xs.take 1034394548).length = 1034394548 := by
    rw [List.length_take]
    omega
  obtain ⟨s0, h0, hh0, hcap0⟩ := push_back_all_chain 4 (by decide) 48 (xs.take 1034394548)
    (by rw [hl1, grown_capacity_iterate_48]) (by rw [hl1]; decide) (by rw [hl1]; decide)
  obtain ⟨p, rest, hdrop⟩ : ∃ p rest, xs.drop 1034394548 = p :: rest := by
    cases hd : xs.drop 1034394548 with
    | nil =>
      have := congrArg List.length hd
      rw [List.length_drop, List.length_nil] at this
      omega
    | cons p r => exact ⟨p, r, rfl⟩
  have hsplit : xs = xs.take 1034394548 ++ p :: rest := by
    rw [← hdrop, List.take_append_drop]
  obtain ⟨addr, v⟩ := p
  have hlm : ((xs.take 1034394548).map Prod.snd).length = 1034394548 := by
    rw [List.length_map, hl1]
  have h1 : push_back s0 4 addr v = none :=
    push_back_full_wrap s0 4 ((xs.take 1034394548).map Prod.snd) addr v hh0
      (by rw [hlm, hcap0, hl1]) (by rw [hlm]; decide) (by rw [hlm]; decide)
  rw [hsplit, push_back_all_append, h0]
  simp only [Option.some_bind, push_back_all, h1]

end vector


namespace vector

open TrivialVectorBase

/-- C5. Calling `push_back` on each value of `xs` in order on an empty vector, with
`3 * N + 1 < 2 ^ 32` for the number `N` of values: while the byte size
`(3 * N + 1) / 2 * sizeof(T)` fits 32 bits as well, the calls return a vector with
`size() == N` whose elements at the indices `0 .. N - 1` are the values of `xs` in order,
whatever addresses the reallocations on the way return; but on a `vector<int>` and for
`N = 1034394549`, where the growth computation still fits 32 bits, the last call has undefined
behaviour. -/
theorem push_back_all_byte_size_wrap (xs : List (Nat × α)) :
    (∀ itemSize, 0 < itemSize → 3 * xs.length + 1 < SIZE_TYPE_MOD →
      (3 * xs.length + 1) / 2 * itemSize < SIZE_TYPE_MOD →
      ∃ s, push_back_all empty_vector itemSize xs = some s ∧ size s = xs.length ∧
        size s ≤ capacity s ∧
        (∀ i (hi : i < xs.length), index s i = some (xs.get ⟨i, hi⟩).2) ∧
        elements s = xs.map (fun p => some p.2)) ∧
    (xs.length = 1034394549 →
      3 * xs.length + 1 < SIZE_TYPE_MOD ∧ push_back_all empty_vector 4 xs = none) := by
  constructor
  · intro itemSize hpos hN hB
    obtain ⟨s, h1, hh⟩ := push_back_all_spec itemSize xs empty_vector []
      (holds_empty itemSize hpos) (by simpa using hN) (by simpa using hB)
    simp only [List.nil_append] at hh
    refine ⟨s, h1, ?_, ?_, ?_, ?_⟩
    · rw [size, hh.2.2.1, List.length_map]
    · rw [size, capacity, hh.2.2.1]
      exact hh.2.2.2.1
    · intro i hi
      rw [index, hh.2.2.2.2 i (by simpa using hi), List.getElem?_map,
        List.getElem?_eq_getElem hi]
      rfl
    · rw [hh.elements_eq, List.map_map]
      rfl
  · intro hlen
    refine ⟨?_, push_back_all_wrap xs hlen⟩
    rw [hlen]
    decide

/-- C5, the failing input: 1034394549 calls of `push_back` on an empty `vector<int>`, the
`i`-th reallocation returning the address `i + 1`; four calls do what the claim says. -/
theorem push_back_all_byte_size_wrap_witness :
    ((List.range 1034394549).map (fun i => (i + 1, i))).length = 1034394549 ∧
      (3 * ((List.range 1034394549).map (fun i => (i + 1, i))).length + 1 < SIZE_TYPE_MOD ∧
        push_back_all empty_vector 4 ((List.range 1034394549).map (fun i => (i + 1, i))) =
          none) ∧
      (push_back_all empty_vector 4 [(1, 10), (2, 20), (3, 30), (4, 40)]).map
          (fun s => (s.mBegin, size s, capacity s, elements s)) =
        some (3, 4, 5, [some 10, some 20, some 30, some 40]) :=
  ⟨by rw [List.length_map, List.length_range],
    (push_back_all_byte_size_wrap ((List.range 1034394549).map (fun i => (i + 1, i)))).2
      (by rw [List.length_map, List.length_range]),
    by decide⟩

end vector


/-! ### The number of reallocations of repeated `push_back` -/

namespace vector

open TrivialVectorBase

/-- The growth step keeps the two bounds: with `j + 1` reallocations so far, `3 ^ j` is at most
`2 ^ j` times the size, and `2 * 3 ^ j` at most `2 ^ j` times the capacity. -/
theorem growth_bounds_step (j n : Nat) (h : 2 * 3 ^ j ≤ 2 ^ j * n) :
    3 ^ (j + 1) ≤ 2 ^ (j + 1) * (n + 1) ∧
      2 * 3 ^ (j + 1) ≤ 2 ^ (j + 1) * ((3 * (n + 1) + 1) / 2) := by
  have hc : 3 * n + 3 ≤ 2 * ((3 * (n + 1) + 1) / 2) := by omega
  have hq : 0 < 2 ^ j := pow_pos (by decide) j
  have h2 : 2 ^ j * (3 * n + 3) ≤ 2 ^ j * (2 * ((3 * (n + 1) + 1) / 2)) :=
    Nat.mul_le_mul_left _ hc
  rw [pow_succ, pow_succ]
  constructor
  · nlinarith
  · nlinarith

/-- The invariant of the reallocation count along a run of `push_back` calls. -/
theorem push_back_reallocations_spec (itemSize : Nat) :
    ∀ (xs : List (Nat × α)) (s : TrivialVectorBase α) (ys : List α) (k0 : Nat),
    Holds s itemSize ys →
    ((k0 = 0 ∧ s.mCapacity = 0) ∨
      (1 ≤ k0 ∧ 3 ^ (k0 - 1) ≤ 2 ^ (k0 - 1) * ys.length ∧
        2 * 3 ^ (k0 - 1) ≤ 2 ^ (k0 - 1) * s.mCapacity)) →
    3 * (ys.length + xs.length) + 1 < SIZE_TYPE_MOD →
    (3 * (ys.length + xs.length) + 1) / 2 * itemSize < SIZE_TYPE_MOD →
    ∃ k, push_back_reallocations s itemSize xs = some k ∧
      (1 ≤ k0 + k → 3 ^ (k0 + k - 1) ≤ 2 ^ (k0 + k - 1) * (ys.length + xs.length)) := by
  intro xs
  induction xs with
  | nil =>
    intro s ys k0 _ hinv _ _
    refine ⟨0, rfl, fun hk => ?_⟩
    rcases hinv with ⟨h0, -⟩ | ⟨-, h1, -⟩
    · omega
    · simpa using h1
  | cons p xs ih =>
    intro s ys k0 h hinv hN hB
    obtain ⟨addr, v⟩ := p
    simp only [List.length_cons] at hN hB
    have hstep : (3 * (ys.length + 1) + 1) / 2 * itemSize ≤
        (3 * (ys.length + (xs.length + 1)) + 1) / 2 * itemSize :=
      Nat.mul_le_mul_right _ (Nat.div_le_div_right (by omega))
    obtain ⟨s1, h1, hh, hsame, hgrow⟩ := push_back_spec s itemSize ys addr v h (by omega)
      (fun _ => Nat.lt_of_le_of_lt hstep hB)
    have hle : ys.length ≤ s.mCapacity := h.2.2.2.1
    have hlen1 : (ys ++ [v]).length = ys.length + 1 := by simp
    have e : ys.length + 1 + xs.length = ys.length + (xs.length + 1) := by omega
    by_cases hroom : ys.length < s.mCapacity
    · have hcap : s1.mCapacity = s.mCapacity := (hsame hroom).1
      have hinv1 : (k0 = 0 ∧ s1.mCapacity = 0) ∨
          (1 ≤ k0 ∧ 3 ^ (k0 - 1) ≤ 2 ^ (k0 - 1) * (ys ++ [v]).length ∧
            2 * 3 ^ (k0 - 1) ≤ 2 ^ (k0 - 1) * s1.mCapacity) := by
        rcases hinv with ⟨-, hz⟩ | ⟨hk, ha, hb⟩
        · omega
        · refine Or.inr ⟨hk, ?_, ?_⟩
          · rw [hlen1]
            exact Nat.le_trans ha (Nat.mul_le_mul_left _ (Nat.le_succ _))
          · rw [hcap]
            exact hb
      obtain ⟨k, hk1, hk2⟩ := ih s1 (ys ++ [v]) k0 hh hinv1 (by rw [hlen1, e]; exact hN)
        (by rw [hlen1, e]; exact hB)
      refine ⟨k, ?_, ?_⟩
      · simp only [push_back_reallocations, h1, hk1, capacity, hcap, if_true]
      · intro hpos
        have := hk2 hpos
        rw [hlen1] at this
        rw [List.length_cons, ← e]
        exact this
    · have hfull : s.mCapacity = ys.length := by omega
      have hcap : s1.mCapacity = (3 * (ys.length + 1) + 1) / 2 := (hgrow (by omega)).1
      have hne : ¬ s1.mCapacity = s.mCapacity := by omega
      have hinv1 : (k0 + 1 = 0 ∧ s1.mCapacity = 0) ∨
          (1 ≤ k0 + 1 ∧ 3 ^ (k0 + 1 - 1) ≤ 2 ^ (k0 + 1 - 1) * (ys ++ [v]).length ∧
            2 * 3 ^ (k0 + 1 - 1) ≤ 2 ^ (k0 + 1 - 1) * s1.mCapacity) := by
        refine Or.inr ⟨by omega, ?_⟩
        rw [hlen1, hcap, Nat.add_sub_cancel]
        rcases hinv with ⟨hk, hz⟩ | ⟨hk, -, hb⟩
        · have hy : ys.length = 0 := by omega
          rw [hk, hy]
          decide
        · obtain ⟨j, rfl⟩ : ∃ j, k0 = j + 1 := ⟨k0 - 1, by omega⟩
          rw [Nat.add_sub_cancel, hfull] at hb
          exact growth_bounds_step j ys.length hb
      obtain ⟨k, hk1, hk2⟩ := ih s1 (ys ++ [v]) (k0 + 1) hh hinv1
        (by rw [hlen1, e]; exact hN) (by rw [hlen1, e]; exact hB)
      refine ⟨k + 1, ?_, ?_⟩
      · simp only [push_back_reallocations, h1, hk1, capacity, hne, if_false]
      · intro _
        have := hk2 (by omega)
        rw [hlen1] at this
        have e2 : k0 + 1 + k - 1 = k0 + (k + 1) - 1 := by omega
        rw [List.length_cons, ← e, ← e2]
        exact this

/-- A run of `push_back` calls with a call that has undefined behaviour has no number of
reallocations. -/
theorem push_back_reallocations_none (itemSize : Nat) :
    ∀ (xs : List (Nat × α)) (s : TrivialVectorBase α),
    push_back_all s itemSize xs = none → push_back_reallocations s itemSize xs = none := by
  intro xs
  induction xs with
  | nil =>
    intro s h
    cases h
  | cons p xs ih =>
    intro s h
    obtain ⟨addr, v⟩ := p
    simp only [push_back_all] at h
    simp only [push_back_reallocations]
    cases hp : push_back s itemSize addr v with
    | none => rfl
    | some s1 =>
      rw [hp] at h
      simp only at h ⊢
      rw [ih s1 h]

/-- C11. A `push_back` on a full vector of capacity `c` reallocates to `(3 * (c + 1) + 1) / 2`
slots, at least `c + c / 2 + 1`, and the number `k` of reallocating calls among `N`
consecutive calls of `push_back` on an empty vector, with `3 * N + 1 < 2 ^ 32`, satisfies
`3 ^ (k - 1) <= 2 ^ (k - 1) * N` whenever `k >= 1`, both while the byte size of the blocks
fits 32 bits; but on a `vector<int>` and for `N = 1034394549`, where `3 * N + 1 < 2 ^ 32`, the
last call has undefined behaviour and the run has no number of reallocations. -/
theorem push_back_reallocations_byte_size_wrap (xs : List (Nat × α)) :
    (∀ (itemSize : Nat) (s : TrivialVectorBase α) (ys : List α) (addr : Nat) (v : α),
      Holds s itemSize ys → ys.length = s.mCapacity →
      3 * (ys.length + 1) + 1 < SIZE_TYPE_MOD →
      (3 * (ys.length + 1) + 1) / 2 * itemSize < SIZE_TYPE_MOD →
      ∃ s1, push_back s itemSize addr v = some s1 ∧
        capacity s1 = (3 * (capacity s + 1) + 1) / 2 ∧
        capacity s + capacity s / 2 + 1 ≤ capacity s1) ∧
    (∀ itemSize, 0 < itemSize → 3 * xs.length + 1 < SIZE_TYPE_MOD →
      (3 * xs.length + 1) / 2 * itemSize < SIZE_TYPE_MOD →
      ∃ k, push_back_reallocations empty_vector itemSize xs = some k ∧
        (1 ≤ k → 3 ^ (k - 1) ≤ 2 ^ (k - 1) * xs.length)) ∧
    (xs.length = 1034394549 →
      1 ≤ xs.length ∧ 3 * xs.length + 1 < SIZE_TYPE_MOD ∧
        push_back_reallocations empty_vector 4 xs = none) := by
  refine ⟨?_, ?_, ?_⟩
  · intro itemSize s ys addr v h hfull hov hB
    obtain ⟨s1, h1, -, -, hgrow⟩ := push_back_spec s itemSize ys addr v h hov (fun _ => hB)
    have hcap : s1.mCapacity = (3 * (ys.length + 1) + 1) / 2 := (hgrow (by omega)).1
    refine ⟨s1, h1, ?_, ?_⟩
    · unfold capacity
      rw [hcap, hfull]
    · unfold capacity
      rw [hcap, hfull]
      omega
  · intro itemSize hpos hM hB
    obtain ⟨k, hk1, hk2⟩ := push_back_reallocations_spec itemSize xs empty_vector [] 0
      (holds_empty itemSize hpos) (Or.inl ⟨rfl, rfl⟩) (by simpa using hM) (by simpa using hB)
    refine ⟨k, hk1, fun hk => ?_⟩
    have := hk2 (by omega)
    simpa using this
  · intro hlen
    refine ⟨by omega, ?_, push_back_reallocations_none 4 xs empty_vector
      (push_back_all_wrap xs hlen)⟩
    rw [hlen]
    decide

/-- C11, the failing input: 1034394549 calls of `push_back` on an empty `vector<int>`, every
value 0 and the `i`-th reallocation returning the address `i + 1`.  Ten calls reallocate four
times, at the sizes 1, 3, 6 and 10 (capacities 2, 5, 9 and 15), and
`3 ^ 3 = 27 <= 2 ^ 3 * 10 = 80`. -/
theorem push_back_reallocations_byte_size_wrap_witness :
    ((List.range 1034394549).map (fun i => (i + 1, 0))).length = 1034394549 ∧
      (1 ≤ ((List.range 1034394549).map (fun i => (i + 1, 0))).length ∧
        3 * ((List.range 1034394549).map (fun i => (i + 1, 0))).length + 1 < SIZE_TYPE_MOD ∧
        push_back_reallocations empty_vector 4
          ((List.range 1034394549).map (fun i => (i + 1, 0))) = none) ∧
      push_back_reallocations (empty_vector : TrivialVectorBase Nat) 4
          [(1, 0), (2, 0), (3, 0), (4, 0), (5, 0), (6, 0), (7, 0), (8, 0), (9, 0),
            (10, 0)] = some 4 ∧
      (push_back_all (empty_vector : TrivialVectorBase Nat) 4
          [(1, 0), (2, 0), (3, 0), (4, 0), (5, 0), (6, 0), (7, 0), (8, 0), (9, 0),
            (10, 0)]).map (fun s => (s.mBegin, size s, capacity s)) = some (10, 10, 15) :=
  ⟨by rw [List.length_map, List.length_range],
    (push_back_reallocations_byte_size_wrap
      ((List.range 1034394549).map (fun i => (i + 1, 0)))).2.2
      (by rw [List.length_map, List.length_range]),
    by decide, by decide⟩

end vector


end utils
